import Mathlib

/-!
# Verification of the mcSIM lattice pattern engine (`mcsim/analysis/dmd_patterns.py`)

This file gives a shallow embedding of the integer-lattice pattern engine:
lattice vectors are pairs of integers, the floating-point geometry of the
source is modelled by exact rational arithmetic (the source rounds its float
comparisons to 12 decimal digits precisely so that they behave like exact
arithmetic on the integer inputs it uses), and NumPy arrays indexed by pixel
coordinates are modelled as functions on `ℤ × ℤ` together with the finite
coordinate boxes the source allocates.

Embedded operations (names follow the Python source):
* `test_in_cell`, `get_unit_cell` boxes and counts (unit-cell membership),
* `reduce_basis` (Lagrange–Gauss reduction, with NumPy's round-half-to-even),
* `reduce2cell` (reduction of a point into the unit cell),
* the direct tiling loop of `tile_pattern`, `double_cell`, and the
  cell-doubling recursion of `tile_pattern`,
* `get_sim_unit_cell` and the guards of `get_sim_pattern`,
* the Farey mediant loop of `find_rational_approx_angle`,
* the guards and the Floyd–Steinberg branch of `binarize`.
-/

/-- Cross product (determinant) of two integer 2-vectors, `np.cross(va, vb)`. -/
def crossZ (u v : ℤ × ℤ) : ℤ := u.1 * v.2 - u.2 * v.1

/-- Squared euclidean norm of an integer 2-vector, `np.linalg.norm(v)**2`. -/
def normSq (v : ℤ × ℤ) : ℤ := v.1 * v.1 + v.2 * v.2

/-- Dot product, `np.vdot(u, v)` / `np.inner(u, v)`. -/
def dotZ (u v : ℤ × ℤ) : ℤ := u.1 * v.1 + u.2 * v.2

/-- Componentwise integer combination `n * va + m * vb`. -/
def latComb (va vb : ℤ × ℤ) (n m : ℤ) : ℤ × ℤ :=
  (n * va.1 + m * vb.1, n * va.2 + m * vb.2)

/-- Membership in the lattice spanned by `va` and `vb`. -/
def latticeMem (va vb q : ℤ × ℤ) : Prop := ∃ n m : ℤ, q = latComb va vb n m

/-- `np.round`: round half to even (banker's rounding), on exact rationals. -/
def roundHalfEven (q : ℚ) : ℤ :=
  if q - ⌊q⌋ < 1/2 then ⌊q⌋
  else if 1/2 < q - ⌊q⌋ then ⌊q⌋ + 1
  else if Even ⌊q⌋ then ⌊q⌋ else ⌊q⌋ + 1

/-- The `while Bb < Ba` loop of `reduce_basis` (Lagrange–Gauss reduction).
One iteration swaps the vectors, flips the swap parity, and shears the new
longer vector by the rounded projection coefficient `mu`.  Termination: each
iteration strictly decreases the squared norm of the first vector, a
non-negative integer. -/
def gaussLoop (va vb : ℤ × ℤ) (swapped : Bool) : (ℤ × ℤ) × (ℤ × ℤ) × Bool :=
  if _h : normSq vb < normSq va then
    gaussLoop vb
      (va.1 - roundHalfEven ((dotZ vb va : ℚ) / (normSq vb : ℚ)) * vb.1,
        va.2 - roundHalfEven ((dotZ vb va : ℚ) / (normSq vb : ℚ)) * vb.2)
      (!swapped)
  else
    (va, vb, swapped)
termination_by (normSq va).toNat
decreasing_by
  have h0 : 0 ≤ normSq vb := by
    have h1 := mul_self_nonneg vb.1
    have h2 := mul_self_nonneg vb.2
    unfold normSq
    omega
  omega

/-- `reduce_basis(va, vb)`: initial shear of `vb`, the swap/shear loop, and
the final un-swap restoring the original order parity (`if swapped == 1`). -/
def reduce_basis (va vb : ℤ × ℤ) : (ℤ × ℤ) × (ℤ × ℤ) :=
  let k0 := roundHalfEven ((dotZ va vb : ℚ) / (normSq va : ℚ))
  let r := gaussLoop va (vb.1 - k0 * va.1, vb.2 - k0 * va.2) false
  if r.2.2 then (r.2.1, r.1) else (r.1, r.2.1)

/-- The line through `p1` and `p2` evaluated at abscissa `x`:
the helper `line(x, p1, p2)` of `test_in_cell`. -/
def lineQ (x : ℚ) (p1 p2 : ℚ × ℚ) : ℚ :=
  ((p2.2 - p1.2) * x + p1.2 * p2.1 - p1.1 * p2.2) / (p2.1 - p1.1)

/-- One of the two symmetric blocks of `test_in_cell`: the strip test between
the line through `0` along `u` (near line, inclusive) and its translate
through `w` (far line, exclusive).  With `u := va, w := vb` this is the
`in_cell_a` computation, with `u := vb, w := va` the `in_cell_b` one. -/
def stripTest (u w p : ℤ × ℤ) : Bool :=
  let x : ℚ := p.1
  let y : ℚ := p.2
  if u.1 = 0 then
    let gthan1 := decide (x > 0)
    let eq1 := decide (x = 0)
    let gthan2 := decide (x > (w.1 : ℚ))
    let eq2 := decide (x = (w.1 : ℚ))
    ((gthan1 != gthan2) || eq1) && !eq2
  else
    let gthan1 := decide (lineQ x (0, 0) ((u.1 : ℚ), (u.2 : ℚ)) > y)
    let eq1 := decide (lineQ x (0, 0) ((u.1 : ℚ), (u.2 : ℚ)) = y)
    let gthan2 := decide (lineQ x ((w.1 : ℚ), (w.2 : ℚ))
      (((u.1 + w.1 : ℤ) : ℚ), ((u.2 + w.2 : ℤ) : ℚ)) > y)
    let eq2 := decide (lineQ x ((w.1 : ℚ), (w.2 : ℚ))
      (((u.1 + w.1 : ℤ) : ℚ), ((u.2 + w.2 : ℤ) : ℚ)) = y)
    ((gthan1 != gthan2) || eq1) && !eq2

/-- `test_in_cell(points, va, vb)` at a single integer point. -/
def test_in_cell (va vb p : ℤ × ℤ) : Bool :=
  stripTest va vb p && stripTest vb va p

/-- Lower end of the x-coordinate range of the unit-cell array of
`get_unit_cell` (the "massaged so that origin is at x=0" shifts). -/
def cellLo (a b : ℤ) : ℤ :=
  if a < 0 ∧ 0 ≤ b then a + 1
  else if 0 ≤ a ∧ b < 0 then b + 1
  else if a < 0 ∧ b < 0 then a + b + 1
  else 0

/-- The finite pixel box (`meshgrid` of x- and y-ranges) allocated by
`get_unit_cell(va, vb)`: x-range of length `|va.x| + |vb.x|` starting at
`cellLo va.1 vb.1`, y-range likewise. -/
def cellBox (va vb : ℤ × ℤ) : Finset (ℤ × ℤ) :=
  Finset.Ico (cellLo va.1 vb.1) (cellLo va.1 vb.1 + (va.1.natAbs + vb.1.natAbs)) ×ˢ
    Finset.Ico (cellLo va.2 vb.2) (cellLo va.2 vb.2 + (va.2.natAbs + vb.2.natAbs))

/-- Number of non-sentinel (non-NaN) entries of the array built by
`get_unit_cell(va, vb)`: the pixels of the box that pass `test_in_cell`. -/
def unitCellCount (va vb : ℤ × ℤ) : ℕ :=
  ((cellBox va vb).filter (fun p => test_in_cell va vb p = true)).card

/-- `float(x).is_integer()` for a rational: the denominator is 1. -/
def isIntegerQ (q : ℚ) : Bool := q.den = 1

/-- The guard of `get_sim_pattern` / `get_sim_unit_cell`: raise unless both
components of `vec_b` are evenly divisible by `nphases`
(`(vec_b[i] / nphases).is_integer()`). -/
def phaseGuardFails (vb : ℤ × ℤ) (nphases : ℤ) : Bool :=
  !(isIntegerQ ((vb.1 : ℚ) / (nphases : ℚ))) ||
    !(isIntegerQ ((vb.2 : ℚ) / (nphases : ℚ)))

/-- Python `int()` truncation (toward zero) of a rational, the effect of
`np.array(v, dtype=int)` on float entries. -/
def truncQ (q : ℚ) : ℤ := q.num.tdiv (q.den : ℤ)

/-- The input validation of `get_unit_cell(vec_a, vec_b)`, on possibly
non-integer inputs.  The source loop is

    for vecs in [vec_a, vec_b]:
        for v in vec_a:
            ...check float(v).is_integer()...

so the inner loop ranges over `vec_a` both times and `vec_b` is never
checked; afterwards both vectors are cast with `dtype=int` (truncation) and
the cross product is tested against zero. -/
def get_unit_cell_validate (vec_a vec_b : ℚ × ℚ) : Except String ((ℤ × ℤ) × (ℤ × ℤ)) :=
  if ¬ (isIntegerQ vec_a.1 ∧ isIntegerQ vec_a.2 ∧ isIntegerQ vec_a.1 ∧ isIntegerQ vec_a.2) then
    Except.error "At least one component of vec_a or vec_b cannot be interpreted as an integer"
  else
    let vaZ := (truncQ vec_a.1, truncQ vec_a.2)
    let vbZ := (truncQ vec_b.1, truncQ vec_b.2)
    if crossZ vaZ vbZ = 0 then
      Except.error "vec_a and vec_b are linearly dependent."
    else
      Except.ok (vaZ, vbZ)

/-- The out-of-range guard of `binarize`:

    if np.any(pattern_gray) > 1 or np.any(pattern_gray) < 0: raise ...

`np.any` returns a boolean (0 or 1), which is then compared with 1 and 0. -/
def binarizeRangeGuard (pattern_gray : List (List ℚ)) : Bool :=
  let anyTruthy : Bool := pattern_gray.any (fun row => row.any (fun v => v != 0))
  let b : ℤ := if anyTruthy then 1 else 0
  decide (b > 1) || decide (b < 0)

/-- Pointwise additive update of a grayscale array modelled as a function:
`pattern_gray[q] += d`. -/
def updQ (f : ℕ × ℕ → ℚ) (q : ℕ × ℕ) (d : ℚ) : ℕ × ℕ → ℚ :=
  fun r => if r = q then f q + d else f r

/-- One pixel step of the `mode == "floyd-steinberg"` loop of `binarize`,
exactly as the source writes it.  `np.round` of the gray value is stored into
the boolean output array (truthy iff nonzero) and the quantization error is
diffused; note the source guards the lower-right term with `jj < (ny - 1)`
(the row count) rather than `jj < (nx - 1)`. -/
def fsPixel (ny nx : ℕ) (st : (ℕ × ℕ → ℚ) × (ℕ × ℕ → Bool)) (i j : ℕ) :
    (ℕ × ℕ → ℚ) × (ℕ × ℕ → Bool) :=
  let g := st.1
  let bv : Bool := decide (roundHalfEven (g (i, j)) ≠ 0)
  let err : ℚ := g (i, j) - (if bv then 1 else 0)
  let g1 := if j < nx - 1 then updQ g (i, j + 1) (err * 7 / 16) else g
  let g2 :=
    if i < ny - 1 then
      let ga := if 0 < j then updQ g1 (i + 1, j - 1) (err * 3 / 16) else g1
      let gb := updQ ga (i + 1, j) (err * 5 / 16)
      if j < ny - 1 then updQ gb (i + 1, j + 1) (err * 1 / 16) else gb
    else g1
  (g2, fun r => if r = (i, j) then bv else st.2 r)

/-- The full raster-order Floyd–Steinberg pass of `binarize` on an
`ny`-by-`nx` grayscale array, returning the boolean output array. -/
def binarize_fs (ny nx : ℕ) (g0 : ℕ × ℕ → ℚ) : ℕ × ℕ → Bool :=
  ((List.range ny).foldl
    (fun st i => (List.range nx).foldl (fun st2 j => fsPixel ny nx st2 i j) st)
    (g0, fun _ => false)).2

/-- The same pass as claim C9 states it (second definition, written from the
claim's words, for comparison): the lower-right 1/16 term goes to
`(i+1, j+1)` whenever that pixel is inside the array, i.e. guarded by the
column bound `j < nx - 1`. -/
def fsPixelPerClaim (ny nx : ℕ) (st : (ℕ × ℕ → ℚ) × (ℕ × ℕ → Bool)) (i j : ℕ) :
    (ℕ × ℕ → ℚ) × (ℕ × ℕ → Bool) :=
  let g := st.1
  let bv : Bool := decide (roundHalfEven (g (i, j)) ≠ 0)
  let err : ℚ := g (i, j) - (if bv then 1 else 0)
  let g1 := if j < nx - 1 then updQ g (i, j + 1) (err * 7 / 16) else g
  let g2 :=
    if i < ny - 1 then
      let ga := if 0 < j then updQ g1 (i + 1, j - 1) (err * 3 / 16) else g1
      let gb := updQ ga (i + 1, j) (err * 5 / 16)
      if j < nx - 1 then updQ gb (i + 1, j + 1) (err * 1 / 16) else gb
    else g1
  (g2, fun r => if r = (i, j) then bv else st.2 r)

/-- Raster pass with the claimed kernel bounds. -/
def binarize_fs_claim (ny nx : ℕ) (g0 : ℕ × ℕ → ℚ) : ℕ × ℕ → Bool :=
  ((List.range ny).foldl
    (fun st i => (List.range nx).foldl (fun st2 j => fsPixelPerClaim ny nx st2 i j) st)
    (g0, fun _ => false)).2

/-- A 2-by-3 grayscale input (all values exactly representable in binary
floating point, so the Python run computes them exactly). -/
def fsInput : ℕ × ℕ → ℚ :=
  fun p => if p = (0, 1) then 1 / 2 else if p = (1, 2) then 5 / 16 else 0

/-- Error of a recorded fraction `(num, den)` against the target slope. -/
def errTo (s : ℚ) (e : ℕ × ℕ) : ℚ := |(e.1 : ℚ) / (e.2 : ℚ) - s|

/-- The Farey / Stern-Brocot mediant loop of `find_rational_approx_angle`.
State: bounds `fr_lb`, `fr_ub` (fractions as numerator/denominator pairs) and
the recorded sequence `approximate_seq`.  Each iteration forms the mediant,
breaks if its denominator reaches `nmax`, otherwise narrows one bound and
records the mediant when it is at least as close to the slope as the last
recorded approximation (when the mediant equals the slope exactly, the source
first records it in the equality branch and then records it again in the
`else` branch, whose guard `0 <= 0` holds).  The loop of the source is
`while True` with a `break`; the `fuel` argument bounds the number of
iterations, and every theorem below holds for every fuel. -/
def fareyLoop (s : ℚ) (nmax : ℕ) : ℕ → (ℕ × ℕ) → (ℕ × ℕ) → List (ℕ × ℕ) → List (ℕ × ℕ)
  | 0, _, _, seq => seq
  | fuel + 1, lb, ub, seq =>
    if nmax ≤ lb.2 + ub.2 then seq
    else
      if ((lb.1 + ub.1 : ℕ) : ℚ) / ((lb.2 + ub.2 : ℕ) : ℚ) = s then
        fareyLoop s nmax fuel (lb.1 + ub.1, lb.2 + ub.2) (lb.1 + ub.1, lb.2 + ub.2)
          (seq ++ [(lb.1 + ub.1, lb.2 + ub.2), (lb.1 + ub.1, lb.2 + ub.2)])
      else if s < ((lb.1 + ub.1 : ℕ) : ℚ) / ((lb.2 + ub.2 : ℕ) : ℚ) then
        fareyLoop s nmax fuel lb (lb.1 + ub.1, lb.2 + ub.2)
          (if seq = [] then seq ++ [(lb.1 + ub.1, lb.2 + ub.2)]
           else if errTo s (lb.1 + ub.1, lb.2 + ub.2) ≤ errTo s (seq.getLastD (0, 1)) then
             seq ++ [(lb.1 + ub.1, lb.2 + ub.2)]
           else seq)
      else
        fareyLoop s nmax fuel (lb.1 + ub.1, lb.2 + ub.2) ub
          (if seq = [] then seq ++ [(lb.1 + ub.1, lb.2 + ub.2)]
           else if errTo s (lb.1 + ub.1, lb.2 + ub.2) ≤ errTo s (seq.getLastD (0, 1)) then
             seq ++ [(lb.1 + ub.1, lb.2 + ub.2)]
           else seq)

/-- The recorded approximation sequence of `find_rational_approx_angle` for a
target slope `s` (the reduced angle's tangent) and bound `nmax`, starting
from the bounds `fr_lb = 0/1`, `fr_ub = 1/1`.  Each loop iteration strictly
increases the sum of the two bound denominators, so `nmax` iterations of
fuel always reach the `break`. -/
def find_rational_approx_seq (s : ℚ) (nmax : ℕ) : List (ℕ × ℕ) :=
  fareyLoop s nmax (nmax + 1) (0, 1) (1, 1) []

/-- Half-open membership `s` in `[0, d)` for `d > 0`, or in `(d, 0]` for
`d < 0`: the signed-area interval carved out by `test_in_cell`'s
near-inclusive / far-exclusive boundary rule. -/
def hoInt (d s : ℤ) : Prop := (0 ≤ s ∧ s < d) ∨ (d < s ∧ s ≤ 0)

/-- The integer multiple selected by flooring a reciprocal coordinate, as in
`reduce2cell`: `hoDiv d s = ⌊s / d⌋`. -/
def hoDiv (d s : ℤ) : ℤ := ⌊(s : ℚ) / (d : ℚ)⌋

/-- `reduce2cell(point, va, vb)`: subtract `na * va + nb * vb` where
`na = ⌊⟨p, ra⟩⌋` and `nb = ⌊⟨p, rb⟩⌋` with `(ra, rb)` the reciprocal
vectors `ra = (vb.2, -vb.1) / D`, `rb = (-va.2, va.1) / D`,
`D = cross(va, vb)` (so `⟨p, ra⟩ = cross(vb, p) / -D` and
`⟨p, rb⟩ = cross(va, p) / D`). -/
def reduce2cell (va vb p : ℤ × ℤ) : ℤ × ℤ :=
  (p.1 - hoDiv (-crossZ va vb) (crossZ vb p) * va.1 - hoDiv (crossZ va vb) (crossZ va p) * vb.1,
    p.2 - hoDiv (-crossZ va vb) (crossZ vb p) * va.2 - hoDiv (crossZ va vb) (crossZ va p) * vb.2)

/-- The value of the cell built by `get_sim_unit_cell` at an in-cell pixel:
`1` where the phase sub-cell (unit cell of `(va, vb/nphases)`) covers it,
`0` elsewhere (`cell_sub[~isnan] = 1` pasted onto the zero cell). -/
def simCellVal (va vbn q : ℤ × ℤ) : ℚ :=
  if test_in_cell va vbn q then 1 else 0

/-- Number of "on" pixels (`np.nansum(cell)`) of the `get_sim_unit_cell`
array: box pixels inside the unit cell that are also inside the sub-cell. -/
def simOnCount (va vb vbn : ℤ × ℤ) : ℕ :=
  ((cellBox va vb).filter
    (fun p => (test_in_cell va vb p && test_in_cell va vbn p) = true)).card

/-- `get_sim_unit_cell(vec_a, vec_b, nphases)`: the divisibility guard, the
degenerate-basis guard of `get_unit_cell`, the construction of the cell and
sub-cell, and the final `np.nansum(cell) != np.sum(cell >= 0) / nphases`
check (`PhaseCellMismatch`).  Returns the "on" count of the cell. -/
def get_sim_unit_cell (va vb : ℤ × ℤ) (nphases : ℤ) : Except String ℕ :=
  if phaseGuardFails vb nphases then
    Except.error "At least one component of vec_b was not divisible by nphases"
  else if crossZ va vb = 0 then
    Except.error "vec_a and vec_b are linearly dependent."
  else if (simOnCount va vb (vb.1 / nphases, vb.2 / nphases) : ℚ) ≠
      (unitCellCount va vb : ℚ) / (nphases : ℚ) then
    Except.error "Cell does not have appropriate number of on pixels"
  else
    Except.ok (simOnCount va vb (vb.1 / nphases, vb.2 / nphases))

/-- First reciprocal coordinate `n` of a (rational) point, row 1 of the
inverted basis matrix in `tile_pattern`:
`n = (vb.y * qx - vb.x * qy) / cross(va, vb)`. -/
def tileNu (va vb : ℤ × ℤ) (q : ℚ × ℚ) : ℚ :=
  ((vb.2 : ℚ) * q.1 - (vb.1 : ℚ) * q.2) / (crossZ va vb : ℚ)

/-- Second reciprocal coordinate `m`, row 2 of the inverted basis matrix:
`m = (-va.y * qx + va.x * qy) / cross(va, vb)`. -/
def tileMu (va vb : ℤ × ℤ) (q : ℚ × ℚ) : ℚ :=
  (-(va.2 : ℚ) * q.1 + (va.1 : ℚ) * q.2) / (crossZ va vb : ℚ)

def fourMin (q1 q2 q3 q4 : ℚ) : ℚ := min (min q1 q2) (min q3 q4)

def fourMax (q1 q2 q3 q4 : ℚ) : ℚ := max (max q1 q2) (max q3 q4)

/-- `na_min = floor(min(n1..n4))` over the four canvas corners of
`tile_pattern` (corners `(nx, ny), (0, ny), (nx, 0), (0, 0)` minus the
start coordinate). -/
def naMinD (va vb s : ℤ × ℤ) (nx ny : ℕ) : ℤ :=
  ⌊fourMin (tileNu va vb ((nx : ℚ) - (s.1 : ℚ), (ny : ℚ) - (s.2 : ℚ)))
    (tileNu va vb (0 - (s.1 : ℚ), (ny : ℚ) - (s.2 : ℚ)))
    (tileNu va vb ((nx : ℚ) - (s.1 : ℚ), 0 - (s.2 : ℚ)))
    (tileNu va vb (0 - (s.1 : ℚ), 0 - (s.2 : ℚ)))⌋

def naMaxD (va vb s : ℤ × ℤ) (nx ny : ℕ) : ℤ :=
  ⌈fourMax (tileNu va vb ((nx : ℚ) - (s.1 : ℚ), (ny : ℚ) - (s.2 : ℚ)))
    (tileNu va vb (0 - (s.1 : ℚ), (ny : ℚ) - (s.2 : ℚ)))
    (tileNu va vb ((nx : ℚ) - (s.1 : ℚ), 0 - (s.2 : ℚ)))
    (tileNu va vb (0 - (s.1 : ℚ), 0 - (s.2 : ℚ)))⌉

def nbMinD (va vb s : ℤ × ℤ) (nx ny : ℕ) : ℤ :=
  ⌊fourMin (tileMu va vb ((nx : ℚ) - (s.1 : ℚ), (ny : ℚ) - (s.2 : ℚ)))
    (tileMu va vb (0 - (s.1 : ℚ), (ny : ℚ) - (s.2 : ℚ)))
    (tileMu va vb ((nx : ℚ) - (s.1 : ℚ), 0 - (s.2 : ℚ)))
    (tileMu va vb (0 - (s.1 : ℚ), 0 - (s.2 : ℚ)))⌋

def nbMaxD (va vb s : ℤ × ℤ) (nx ny : ℕ) : ℤ :=
  ⌈fourMax (tileMu va vb ((nx : ℚ) - (s.1 : ℚ), (ny : ℚ) - (s.2 : ℚ)))
    (tileMu va vb (0 - (s.1 : ℚ), (ny : ℚ) - (s.2 : ℚ)))
    (tileMu va vb ((nx : ℚ) - (s.1 : ℚ), 0 - (s.2 : ℚ)))
    (tileMu va vb (0 - (s.1 : ℚ), 0 - (s.2 : ℚ)))⌉

/-- The `(n, m)` iteration range `range(na_min, na_max + 1) x
range(nb_min, nb_max + 1)` of the direct tiling loop. -/
def tileRange (va vb s : ℤ × ℤ) (nx ny : ℕ) : Finset (ℤ × ℤ) :=
  Finset.Icc (naMinD va vb s nx ny) (naMaxD va vb s nx ny) ×ˢ
    Finset.Icc (nbMinD va vb s nx ny) (nbMaxD va vb s nx ny)

/-- The direct (else-branch) tiling loop of `tile_pattern` as the value of
the finished pattern at an in-canvas pixel `p`: the pastes accumulate with
`np.nansum` semantics, so the final value at `p` is the sum over all pasted
copies `(n, m)` of the cell value at `p - start - n*va - m*vb` when that
point is inside the cell (`memb`), NaN cell entries contributing nothing. -/
def tile_pattern_direct (va vb s : ℤ × ℤ) (nx ny : ℕ) (memb : ℤ × ℤ → Bool)
    (val : ℤ × ℤ → ℚ) (p : ℤ × ℤ) : ℚ :=
  ∑ nm ∈ tileRange va vb s nx ny,
    if memb (p.1 - s.1 - (nm.1 * va.1 + nm.2 * vb.1),
        p.2 - s.2 - (nm.1 * va.2 + nm.2 * vb.2)) then
      val (p.1 - s.1 - (nm.1 * va.1 + nm.2 * vb.1),
        p.2 - s.2 - (nm.1 * va.2 + nm.2 * vb.2))
    else 0

/-- One `double_cell` paste pass along direction `u` (the `na=1, nb=0` base
case): the new cell holds a copy of the old cell at offset `0` and one at
offset `u`; the copy at `u` is pasted second and wins where both copies have
non-sentinel entries. -/
def double_cell_step (u : ℤ × ℤ) (memb : ℤ × ℤ → Bool) (val : ℤ × ℤ → ℚ) :
    (ℤ × ℤ → Bool) × (ℤ × ℤ → ℚ) :=
  (fun q => memb q || memb (q.1 - u.1, q.2 - u.2),
    fun q => if memb (q.1 - u.1, q.2 - u.2) then val (q.1 - u.1, q.2 - u.2) else val q)

/-- The doubling loop of `double_cell`: step `ii` doubles along
`2^ii * u` (`for ii in range(na): ... 2**ii * vec_a ...`). -/
def double_cell_iter (u : ℤ × ℤ) : ℕ → (ℤ × ℤ → Bool) × (ℤ × ℤ → ℚ) →
    (ℤ × ℤ → Bool) × (ℤ × ℤ → ℚ)
  | 0, st => st
  | k + 1, st =>
    double_cell_step (2 ^ k * u.1, 2 ^ k * u.2) (double_cell_iter u k st).1
      (double_cell_iter u k st).2

/-- `na_doublings = max(int(round(floor(log2 delta) / 2)), 1)`. -/
def nDoublings (delta : ℤ) : ℕ :=
  max (roundHalfEven ((Nat.log2 delta.toNat : ℚ) / 2)).toNat 1

/-- `tile_pattern` without initial cell reduction: if the number of `(n, m)`
iterations exceeds 1000, double the cell `na_doublings` times along `vec_a`
and `nb_doublings` times along `vec_b` and recurse on the doubled vectors
(`do_cell_reduction=False`), else tile directly.  The source recursion is
bounded by the shrinking iteration count; `fuel` bounds the recursion depth
and every theorem below holds for every fuel. -/
def tile_pattern_rec : ℕ → (ℤ × ℤ) → (ℤ × ℤ) → (ℤ × ℤ) → ℕ → ℕ →
    (ℤ × ℤ → Bool) → (ℤ × ℤ → ℚ) → (ℤ × ℤ) → ℚ
  | 0, va, vb, s, nx, ny, memb, val, p => tile_pattern_direct va vb s nx ny memb val p
  | fuel + 1, va, vb, s, nx, ny, memb, val, p =>
    if (naMaxD va vb s nx ny - naMinD va vb s nx ny) *
        (nbMaxD va vb s nx ny - nbMinD va vb s nx ny) > 1000 then
      tile_pattern_rec fuel
        (2 ^ nDoublings (naMaxD va vb s nx ny - naMinD va vb s nx ny) * va.1,
          2 ^ nDoublings (naMaxD va vb s nx ny - naMinD va vb s nx ny) * va.2)
        (2 ^ nDoublings (nbMaxD va vb s nx ny - nbMinD va vb s nx ny) * vb.1,
          2 ^ nDoublings (nbMaxD va vb s nx ny - nbMinD va vb s nx ny) * vb.2)
        s nx ny
        (double_cell_iter vb (nDoublings (nbMaxD va vb s nx ny - nbMinD va vb s nx ny))
          (double_cell_iter va (nDoublings (naMaxD va vb s nx ny - naMinD va vb s nx ny))
            (memb, val))).1
        (double_cell_iter vb (nDoublings (nbMaxD va vb s nx ny - nbMinD va vb s nx ny))
          (double_cell_iter va (nDoublings (naMaxD va vb s nx ny - naMinD va vb s nx ny))
            (memb, val))).2
        p
    else tile_pattern_direct va vb s nx ny memb val p

/-- The value of the pattern returned by
`get_sim_pattern(dmd_size, vec_a, vec_b, nphases, phase_index)` at pixel
`p`: the SIM unit cell of `(vec_a, vec_b, nphases)` is built, the start
coordinate is `phase_index * vec_b / nphases`, and `tile_pattern` is called
with `do_cell_reduction=True`, which reduces the basis with `reduce_basis`
and converts the cell with `convert_cell` (`cell2[p] += cell1[reduce2cell p]`)
before tiling. -/
def get_sim_pattern_val (nx ny : ℕ) (va vb : ℤ × ℤ) (nphases phase_index : ℤ)
    (fuel : ℕ) (p : ℤ × ℤ) : ℚ :=
  tile_pattern_rec fuel (reduce_basis va vb).1 (reduce_basis va vb).2
    (phase_index * (vb.1 / nphases), phase_index * (vb.2 / nphases)) nx ny
    (test_in_cell (reduce_basis va vb).1 (reduce_basis va vb).2)
    (fun q => simCellVal va (vb.1 / nphases, vb.2 / nphases) (reduce2cell va vb q)) p

/-- C10: the out-of-range guard of `binarize` compares the *boolean* result of
`np.any` against 1 and 0, so it never fires: out-of-range grayscale inputs
are silently accepted. -/
theorem binarize_range_guard_never_fires (pattern_gray : List (List ℚ)) :
    binarizeRangeGuard pattern_gray = false := by
  unfold binarizeRangeGuard
  cases pattern_gray.any (fun row => row.any (fun v => v != 0)) <;> simp

theorem isIntegerQ_div_iff {a n : ℤ} (hn : n ≠ 0) :
    isIntegerQ ((a : ℚ) / (n : ℚ)) = true ↔ n ∣ a := by
  unfold isIntegerQ
  constructor
  · intro h
    have h1 : ((a : ℚ) / (n : ℚ)) = (((a : ℚ) / (n : ℚ)).num : ℚ) := by
      have := Rat.num_div_den ((a : ℚ) / (n : ℚ))
      rw [of_decide_eq_true h] at this
      simpa using this.symm
    have hn' : (n : ℚ) ≠ 0 := Int.cast_ne_zero.mpr hn
    refine ⟨((a : ℚ) / (n : ℚ)).num, ?_⟩
    have h2 : (a : ℚ) = ((n * ((a : ℚ) / (n : ℚ)).num : ℤ) : ℚ) := by
      push_cast
      field_simp at h1 ⊢
      linarith [h1]
    exact_mod_cast h2
  · rintro ⟨k, rfl⟩
    have hn' : (n : ℚ) ≠ 0 := Int.cast_ne_zero.mpr hn
    have : ((n * k : ℤ) : ℚ) / (n : ℚ) = (k : ℚ) := by
      push_cast
      field_simp
    rw [this]
    simp [Rat.den_intCast]

theorem phaseGuardFails_iff (vb : ℤ × ℤ) (nphases : ℤ) (hn : nphases ≠ 0) :
    phaseGuardFails vb nphases = true ↔ ¬ (nphases ∣ vb.1 ∧ nphases ∣ vb.2) := by
  unfold phaseGuardFails
  rw [Bool.or_eq_true, Bool.not_eq_true', Bool.not_eq_true']
  constructor
  · rintro (h | h) ⟨h1, h2⟩
    · exact absurd ((isIntegerQ_div_iff hn).mpr h1) (by simp [h])
    · exact absurd ((isIntegerQ_div_iff hn).mpr h2) (by simp [h])
  · intro h
    by_contra hc
    push_neg at hc
    obtain ⟨h1, h2⟩ := hc
    have e1 := (isIntegerQ_div_iff hn).mp (by simp [Bool.not_eq_false] at h1 ⊢; exact h1)
    have e2 := (isIntegerQ_div_iff hn).mp (by simp [Bool.not_eq_false] at h2 ⊢; exact h2)
    exact h ⟨e1, e2⟩

/-- C7: the divisibility guard of `get_sim_pattern` fires exactly when at
least one component of `vec_b` is not evenly divisible by `nphases`
(`nphases = 0` would instead raise `ZeroDivisionError` in the division
itself). -/
theorem phase_guard_iff (vb : ℤ × ℤ) (nphases : ℤ) (hn : nphases ≠ 0) :
    phaseGuardFails vb nphases = true ↔ ¬ (nphases ∣ vb.1 ∧ nphases ∣ vb.2) :=
  phaseGuardFails_iff vb nphases hn

theorem phase_guard_iff_witness :
    (3 : ℤ) ≠ 0 ∧
      (phaseGuardFails (1, 2) 3 = true ↔ ¬ ((3 : ℤ) ∣ (1 : ℤ) ∧ (3 : ℤ) ∣ (2 : ℤ))) :=
  ⟨by decide, phase_guard_iff (1, 2) 3 (by decide)⟩

/-- C6: the input validation of `get_unit_cell` never looks at `vec_b`'s
components (the source iterates over `vec_a` in both passes of its check
loop), so the non-integer input `vec_a = (1, 0)`, `vec_b = (1/2, 1)` is
accepted: `vec_b` is silently truncated to `(0, 1)` and a cell is built,
where the claim requires an `InvalidBasis` error. -/
theorem get_unit_cell_validate_misses_vec_b :
    get_unit_cell_validate (1, 0) (1/2, 1) = Except.ok ((1, 0), (0, 1)) := by
  unfold get_unit_cell_validate
  norm_num [isIntegerQ, truncQ, crossZ]
  decide

theorem normSq_nonneg (v : ℤ × ℤ) : 0 ≤ normSq v := by
  have h1 := mul_self_nonneg v.1
  have h2 := mul_self_nonneg v.2
  unfold normSq
  omega

theorem gaussLoop_cross_aux (N : ℕ) :
    ∀ va vb : ℤ × ℤ, ∀ s : Bool, (normSq va).toNat ≤ N →
      crossZ (gaussLoop va vb s).1 (gaussLoop va vb s).2.1 =
        if (gaussLoop va vb s).2.2 = s then crossZ va vb else -crossZ va vb := by
  induction N with
  | zero =>
    intro va vb s hN
    rw [gaussLoop]
    have h0 := normSq_nonneg vb
    rw [dif_neg (by omega)]
    simp
  | succ n ih =>
    intro va vb s hN
    rw [gaussLoop]
    by_cases h : normSq vb < normSq va
    · rw [dif_pos h]
      have h0 := normSq_nonneg vb
      have hle : (normSq vb).toNat ≤ n := by omega
      rw [ih vb _ (!s) hle]
      have hc : crossZ vb
          (va.1 - roundHalfEven ((dotZ vb va : ℚ) / (normSq vb : ℚ)) * vb.1,
            va.2 - roundHalfEven ((dotZ vb va : ℚ) / (normSq vb : ℚ)) * vb.2) =
          -crossZ va vb := by
        unfold crossZ
        ring
      rw [hc]
      rcases (gaussLoop vb
          (va.1 - roundHalfEven ((dotZ vb va : ℚ) / (normSq vb : ℚ)) * vb.1,
            va.2 - roundHalfEven ((dotZ vb va : ℚ) / (normSq vb : ℚ)) * vb.2)
          (!s)).2.2 <;> rcases s <;> simp
    · rw [dif_neg h]
      simp

theorem gaussLoop_cross (va vb : ℤ × ℤ) (s : Bool) :
    crossZ (gaussLoop va vb s).1 (gaussLoop va vb s).2.1 =
      if (gaussLoop va vb s).2.2 = s then crossZ va vb else -crossZ va vb :=
  gaussLoop_cross_aux (normSq va).toNat va vb s le_rfl

theorem crossZ_swap (u v : ℤ × ℤ) : crossZ u v = -crossZ v u := by
  unfold crossZ
  ring

theorem reduce_basis_cross (va vb : ℤ × ℤ) :
    crossZ (reduce_basis va vb).1 (reduce_basis va vb).2 = crossZ va vb := by
  simp only [reduce_basis]
  have h1 : crossZ va
      (vb.1 - roundHalfEven ((dotZ va vb : ℚ) / (normSq va : ℚ)) * va.1,
        vb.2 - roundHalfEven ((dotZ va vb : ℚ) / (normSq va : ℚ)) * va.2) =
      crossZ va vb := by
    unfold crossZ
    ring
  have h2 := gaussLoop_cross va
      (vb.1 - roundHalfEven ((dotZ va vb : ℚ) / (normSq va : ℚ)) * va.1,
        vb.2 - roundHalfEven ((dotZ va vb : ℚ) / (normSq va : ℚ)) * va.2) false
  rw [h1] at h2
  rcases hb : (gaussLoop va
      (vb.1 - roundHalfEven ((dotZ va vb : ℚ) / (normSq va : ℚ)) * va.1,
        vb.2 - roundHalfEven ((dotZ va vb : ℚ) / (normSq va : ℚ)) * va.2) false).2.2
  · rw [hb] at h2
    norm_num at h2
    simp only [hb, Bool.false_eq_true, if_false]
    exact h2
  · rw [hb] at h2
    norm_num at h2
    simp only [hb, if_true]
    rw [crossZ_swap, h2, neg_neg]

/-- C1 (amended): for every basis with nonzero cross product, `reduce_basis`
terminates (it is a total function) and the returned pair spans the same
lattice: the determinant is unchanged, in particular so is its absolute
value.  The length ordering `|va'| <= |vb'|` of the original claim does not
hold in general, see `reduce_basis_order_counterexample`. -/
theorem reduce_basis_det_unchanged (va vb : ℤ × ℤ) (h : crossZ va vb ≠ 0) :
    crossZ (reduce_basis va vb).1 (reduce_basis va vb).2 = crossZ va vb ∧
      (crossZ (reduce_basis va vb).1 (reduce_basis va vb).2).natAbs =
        (crossZ va vb).natAbs := by
  have := reduce_basis_cross va vb
  exact ⟨this, by rw [this]⟩

theorem reduce_basis_det_unchanged_witness :
    crossZ (5, 0) (1, 1) ≠ 0 ∧
      (crossZ (reduce_basis (5, 0) (1, 1)).1 (reduce_basis (5, 0) (1, 1)).2 =
          crossZ (5, 0) (1, 1) ∧
        (crossZ (reduce_basis (5, 0) (1, 1)).1 (reduce_basis (5, 0) (1, 1)).2).natAbs =
          (crossZ (5, 0) (1, 1)).natAbs) :=
  ⟨by decide, reduce_basis_det_unchanged (5, 0) (1, 1) (by decide)⟩

theorem gaussLoop_five_one : gaussLoop (5, 0) (1, 1) false = ((1, 1), (3, -2), true) := by
  rw [gaussLoop]
  rw [dif_pos (show normSq (1, 1) < normSq (5, 0) by decide)]
  have hk : roundHalfEven ((dotZ (1, 1) (5, 0) : ℚ) / (normSq (1, 1) : ℚ)) = 2 := by
    have : ((dotZ (1, 1) (5, 0) : ℤ) : ℚ) / ((normSq (1, 1) : ℤ) : ℚ) = 5 / 2 := by
      norm_num [dotZ, normSq]
    rw [this]
    unfold roundHalfEven
    norm_num
  rw [hk]
  show gaussLoop (1, 1) (3, -2) true = ((1, 1), (3, -2), true)
  rw [gaussLoop]
  rw [dif_neg (show ¬ normSq (3, -2) < normSq (1, 1) by decide)]

/-- C1 (counterexample): for `va = (5, 0)`, `vb = (1, 1)` (cross product 5),
the loop swaps an odd number of times and the final un-swap restores the
original order, so the returned pair is `((3, -2), (1, 1))` with
`|va'|² = 13 > 2 = |vb'|²`: the claimed post-condition `|va'| <= |vb'|`
fails. -/
theorem reduce_basis_order_counterexample :
    crossZ (5, 0) (1, 1) ≠ 0 ∧
      reduce_basis (5, 0) (1, 1) = ((3, -2), (1, 1)) ∧
      ¬ normSq (reduce_basis (5, 0) (1, 1)).1 ≤ normSq (reduce_basis (5, 0) (1, 1)).2 := by
  have hred : reduce_basis (5, 0) (1, 1) = ((3, -2), (1, 1)) := by
    simp only [reduce_basis]
    have hk0 : roundHalfEven ((dotZ (5, 0) (1, 1) : ℚ) / (normSq (5, 0) : ℚ)) = 0 := by
      have : ((dotZ (5, 0) (1, 1) : ℤ) : ℚ) / ((normSq (5, 0) : ℤ) : ℚ) = 1 / 5 := by
        norm_num [dotZ, normSq]
      rw [this]
      unfold roundHalfEven
      norm_num
    rw [hk0]
    have hg : gaussLoop (5, 0) ((1, 1).1 - 0 * (5, 0).1, (1, 1).2 - 0 * (5, 0).2) false =
        ((1, 1), (3, -2), true) := gaussLoop_five_one
    rw [hg]
    rfl
  refine ⟨by decide, hred, ?_⟩
  rw [hred]
  decide

/-- C9 (code bug): on the 2-by-3 input `fsInput`, pixel `(0, 1)` has error
1/2, and its 1/16 share should reach the in-bounds lower-right pixel
`(1, 2)`, pushing it over 1/2 so that it binarizes to 1.  The source instead
guards that term with `jj < (ny - 1)` (rows instead of columns), omits it
for every `jj >= ny - 1`, and `(1, 2)` binarizes to 0.  (For `ny > nx` the
same guard even indexes column `nx`, an IndexError.) -/
theorem rhe_zero : roundHalfEven 0 = 0 := by
  unfold roundHalfEven
  norm_num

theorem rhe_half : roundHalfEven (1 / 2) = 0 := by
  unfold roundHalfEven
  norm_num

theorem rhe_7_32 : roundHalfEven (7 / 32) = 0 := by
  unfold roundHalfEven
  norm_num

theorem rhe_3_32 : roundHalfEven (3 / 32) = 0 := by
  unfold roundHalfEven
  norm_num

theorem rhe_61_256 : roundHalfEven (61 / 256) = 0 := by
  unfold roundHalfEven
  norm_num

theorem rhe_1987_4096 : roundHalfEven (1987 / 4096) = 0 := by
  unfold roundHalfEven
  norm_num

theorem rhe_2115_4096 : roundHalfEven (2115 / 4096) = 1 := by
  unfold roundHalfEven
  norm_num

theorem binarize_fs_lower_right_bug :
    binarize_fs 2 3 fsInput (1, 2) = false ∧
      binarize_fs_claim 2 3 fsInput (1, 2) = true := by
  constructor
  · simp only [binarize_fs, List.range_succ, List.range_zero, List.foldl_append,
      List.foldl_cons, List.foldl_nil, List.nil_append]
    norm_num [fsPixel, updQ, fsInput, Prod.mk.injEq, rhe_zero, rhe_half, rhe_7_32,
      rhe_3_32, rhe_61_256, rhe_1987_4096, -Prod.mk_zero_zero, -Prod.mk_one_one]
  · simp only [binarize_fs_claim, List.range_succ, List.range_zero, List.foldl_append,
      List.foldl_cons, List.foldl_nil, List.nil_append]
    norm_num [fsPixelPerClaim, updQ, fsInput, Prod.mk.injEq, rhe_zero, rhe_half, rhe_7_32,
      rhe_3_32, rhe_61_256, rhe_2115_4096, -Prod.mk_zero_zero, -Prod.mk_one_one]

theorem chain'_snoc_err {s : ℚ} {l : List (ℕ × ℕ)} {x : ℕ × ℕ}
    (h : List.Chain' (fun a b => errTo s b ≤ errTo s a) l)
    (hx : ∀ a, l.getLast? = some a → errTo s x ≤ errTo s a) :
    List.Chain' (fun a b => errTo s b ≤ errTo s a) (l ++ [x]) := by
  rw [List.chain'_append]
  refine ⟨h, List.chain'_singleton x, ?_⟩
  intro a ha y hy
  simp only [List.head?_cons, Option.mem_def, Option.some.injEq] at hy
  subst hy
  exact hx a ha

theorem fareyLoop_chain (s : ℚ) (nmax : ℕ) :
    ∀ (fuel : ℕ) (lb ub : ℕ × ℕ) (seq : List (ℕ × ℕ)),
      List.Chain' (fun a b => errTo s b ≤ errTo s a) seq →
      (∀ e ∈ seq, e.2 < nmax) →
      List.Chain' (fun a b => errTo s b ≤ errTo s a) (fareyLoop s nmax fuel lb ub seq) ∧
        ∀ e ∈ fareyLoop s nmax fuel lb ub seq, e.2 < nmax := by
  intro fuel
  induction fuel with
  | zero =>
    intro lb ub seq h1 h2
    simp only [fareyLoop]
    exact ⟨h1, h2⟩
  | succ n ih =>
    intro lb ub seq h1 h2
    simp only [fareyLoop]
    by_cases hbreak : nmax ≤ lb.2 + ub.2
    · rw [if_pos hbreak]
      exact ⟨h1, h2⟩
    rw [if_neg hbreak]
    have hden : lb.2 + ub.2 < nmax := by omega
    by_cases heq : ((lb.1 + ub.1 : ℕ) : ℚ) / ((lb.2 + ub.2 : ℕ) : ℚ) = s
    · rw [if_pos heq]
      refine ih _ _ _ ?_ ?_
      · have herr : errTo s (lb.1 + ub.1, lb.2 + ub.2) = 0 := by
          unfold errTo
          simp only [heq]
          simp
        have : seq ++ [(lb.1 + ub.1, lb.2 + ub.2), (lb.1 + ub.1, lb.2 + ub.2)] =
            (seq ++ [(lb.1 + ub.1, lb.2 + ub.2)]) ++ [(lb.1 + ub.1, lb.2 + ub.2)] := by
          simp
        rw [this]
        refine chain'_snoc_err (chain'_snoc_err h1 ?_) ?_
        · intro a _
          rw [herr]
          exact abs_nonneg _
        · intro a _
          rw [herr]
          exact abs_nonneg _
      · intro e he
        simp only [List.mem_append, List.mem_cons, List.not_mem_nil, or_false] at he
        rcases he with he | he | he
        · exact h2 e he
        · subst he
          exact hden
        · subst he
          exact hden
    rw [if_neg heq]
    have hseq : ∀ seqx : List (ℕ × ℕ),
        seqx = (if seq = [] then seq ++ [(lb.1 + ub.1, lb.2 + ub.2)]
           else if errTo s (lb.1 + ub.1, lb.2 + ub.2) ≤ errTo s (seq.getLastD (0, 1)) then
             seq ++ [(lb.1 + ub.1, lb.2 + ub.2)]
           else seq) →
        List.Chain' (fun a b => errTo s b ≤ errTo s a) seqx ∧ ∀ e ∈ seqx, e.2 < nmax := by
      intro seqx hx
      by_cases hnil : seq = []
      · rw [if_pos hnil] at hx
        subst hx
        subst hnil
        refine ⟨List.chain'_singleton _, ?_⟩
        intro e he
        simp only [List.nil_append, List.mem_singleton] at he
        rw [he]
        exact hden
      rw [if_neg hnil] at hx
      by_cases hguard : errTo s (lb.1 + ub.1, lb.2 + ub.2) ≤ errTo s (seq.getLastD (0, 1))
      · rw [if_pos hguard] at hx
        subst hx
        constructor
        · refine chain'_snoc_err h1 ?_
          intro a ha
          have : seq.getLastD (0, 1) = a := by
            rw [List.getLastD_eq_getLast?, ha]
            rfl
          rw [this] at hguard
          exact hguard
        · intro e he
          simp only [List.mem_append, List.mem_singleton] at he
          rcases he with he | he
          · exact h2 e he
          · rw [he]
            exact hden
      · rw [if_neg hguard] at hx
        subst hx
        exact ⟨h1, h2⟩
    by_cases hlt : s < ((lb.1 + ub.1 : ℕ) : ℚ) / ((lb.2 + ub.2 : ℕ) : ℚ)
    · rw [if_pos hlt]
      obtain ⟨c1, c2⟩ := hseq _ rfl
      exact ih _ _ _ c1 c2
    · rw [if_neg hlt]
      obtain ⟨c1, c2⟩ := hseq _ rfl
      exact ih _ _ _ c1 c2

/-- C8: along the mediant search of `find_rational_approx_angle`, every
recorded approximation is at least as close to the target slope as the
previously recorded one (adjacent errors are non-increasing), and every
recorded denominator — in particular the final one — is strictly below
`nmax`.  The slope is the tangent of the angle reduced to the first octant,
modelled as an arbitrary rational; the properties hold for any fuel bound on
the `while True` loop. -/
theorem find_rational_approx_monotone (s : ℚ) (nmax : ℕ) :
    List.Chain' (fun a b => errTo s b ≤ errTo s a) (find_rational_approx_seq s nmax) ∧
      ∀ e ∈ find_rational_approx_seq s nmax, e.2 < nmax := by
  unfold find_rational_approx_seq
  exact fareyLoop_chain s nmax (nmax + 1) (0, 1) (1, 1) [] (by simp) (by simp)

theorem ho_neg {d s : ℤ} : hoInt (-d) (-s) ↔ hoInt d s := by
  unfold hoInt
  omega

theorem ho_smul {c d s : ℤ} (hc : 0 < c) : hoInt (c * d) (c * s) ↔ hoInt d s := by
  unfold hoInt
  rw [mul_lt_mul_left hc, mul_lt_mul_left hc,
    show (0 : ℤ) ≤ c * s ↔ 0 ≤ s from by
      constructor
      · intro h
        by_contra hn
        push_neg at hn
        nlinarith
      · intro h
        positivity,
    show c * s ≤ 0 ↔ s ≤ 0 from by
      constructor
      · intro h
        by_contra hn
        push_neg at hn
        nlinarith
      · intro h
        exact mul_nonpos_of_nonneg_of_nonpos hc.le h]

theorem hoInt_of_floor {d s : ℤ} (hd : d ≠ 0) :
    hoInt d (s - hoDiv d s * d) := by
  unfold hoDiv hoInt
  have h1 := Int.floor_le ((s : ℚ) / (d : ℚ))
  have h2 := Int.lt_floor_add_one ((s : ℚ) / (d : ℚ))
  rcases lt_or_gt_of_ne hd with hneg | hpos
  · have hq : ((d : ℚ)) < 0 := by exact_mod_cast hneg
    rw [le_div_iff_of_neg hq] at h1
    rw [div_lt_iff_of_neg hq] at h2
    have h1' : s ≤ ⌊(s : ℚ) / (d : ℚ)⌋ * d := by exact_mod_cast h1
    have h2' : (⌊(s : ℚ) / (d : ℚ)⌋ + 1) * d < s := by exact_mod_cast h2
    right
    constructor
    · nlinarith
    · nlinarith
  · have hq : (0 : ℚ) < (d : ℚ) := by exact_mod_cast hpos
    rw [le_div_iff hq] at h1
    rw [div_lt_iff hq] at h2
    have h1' : ⌊(s : ℚ) / (d : ℚ)⌋ * d ≤ s := by exact_mod_cast h1
    have h2' : s < (⌊(s : ℚ) / (d : ℚ)⌋ + 1) * d := by exact_mod_cast h2
    left
    constructor
    · nlinarith
    · nlinarith

theorem interval_unique {d t1 t2 k : ℤ} (hd : 0 < d)
    (h1a : 0 ≤ t1) (h1b : t1 < d) (h2a : 0 ≤ t2) (h2b : t2 < d)
    (hk : t1 - t2 = k * d) : k = 0 := by
  rcases lt_trichotomy k 0 with hk0 | hk0 | hk0
  · exfalso
    have hk1 : k + 1 ≤ 0 := by omega
    have : (k + 1) * d ≤ 0 := mul_nonpos_of_nonpos_of_nonneg hk1 hd.le
    nlinarith
  · exact hk0
  · exfalso
    have hk1 : 1 ≤ k := hk0
    have : 1 * d ≤ k * d := mul_le_mul_of_nonneg_right hk1 hd.le
    nlinarith

theorem hoInt_unique {d : ℤ} (hd : d ≠ 0) {s m m' : ℤ}
    (h1 : hoInt d (s - m * d)) (h2 : hoInt d (s - m' * d)) : m = m' := by
  rcases lt_or_gt_of_ne hd with hneg | hpos
  · have h1' : hoInt (-d) (-(s - m * d)) := ho_neg.mpr h1
    have h2' : hoInt (-d) (-(s - m' * d)) := ho_neg.mpr h2
    unfold hoInt at h1' h2'
    have hd' : 0 < -d := by omega
    rcases h1' with ⟨a1, a2⟩ | ⟨a1, a2⟩
    · rcases h2' with ⟨b1, b2⟩ | ⟨b1, b2⟩
      · have : -(s - m * d) - -(s - m' * d) = (m' - m) * (-d) := by ring
        have h0 := interval_unique hd' a1 a2 b1 b2 this
        omega
      · exfalso
        omega
    · exfalso
      omega
  · unfold hoInt at h1 h2
    rcases h1 with ⟨a1, a2⟩ | ⟨a1, a2⟩
    · rcases h2 with ⟨b1, b2⟩ | ⟨b1, b2⟩
      · have : s - m * d - (s - m' * d) = (m' - m) * d := by ring
        have h0 := interval_unique hpos a1 a2 b1 b2 this
        omega
      · exfalso
        omega
    · exfalso
      omega

theorem hoInt_sub_iff {d : ℤ} (hd : d ≠ 0) (s m : ℤ) :
    hoInt d (s - m * d) ↔ m = hoDiv d s := by
  constructor
  · intro h
    exact hoInt_unique hd h (hoInt_of_floor hd)
  · rintro rfl
    exact hoInt_of_floor hd

theorem strip_prop_lt (s d : ℤ) : ((¬(s < 0 ↔ s < d) ∨ s = 0) ∧ ¬(s = d)) ↔ hoInt d s := by
  unfold hoInt
  omega

theorem strip_prop_gt (s d : ℤ) : ((¬(0 < s ↔ d < s) ∨ s = 0) ∧ ¬(s = d)) ↔ hoInt d s := by
  unfold hoInt
  omega

theorem lineQ_near (x a b : ℚ) : lineQ x (0, 0) (a, b) = b * x / a := by
  unfold lineQ
  norm_num

theorem lineQ_far (u w : ℤ × ℤ) (x : ℚ) :
    lineQ x ((w.1 : ℚ), (w.2 : ℚ)) (((u.1 + w.1 : ℤ) : ℚ), ((u.2 + w.2 : ℤ) : ℚ)) =
      ((u.2 : ℚ) * x + (w.2 : ℚ) * (u.1 : ℚ) - (w.1 : ℚ) * (u.2 : ℚ)) / (u.1 : ℚ) := by
  unfold lineQ
  push_cast
  congr 1
  · ring
  · ring

/-- `test_in_cell`'s strip test holds iff the signed area `cross(u, p)` lies
in the half-open interval from `0` (inclusive) to `cross(u, w)` (exclusive). -/
theorem stripTest_iff {u w : ℤ × ℤ} (h : crossZ u w ≠ 0) (p : ℤ × ℤ) :
    stripTest u w p = true ↔ hoInt (crossZ u w) (crossZ u p) := by
  by_cases hu1 : u.1 = 0
  · have hD : crossZ u w = -(u.2 * w.1) := by
      unfold crossZ
      rw [hu1]
      ring
    have hS : crossZ u p = -(u.2 * p.1) := by
      unfold crossZ
      rw [hu1]
      ring
    have hu2 : u.2 ≠ 0 := by
      intro h0
      rw [hD, h0] at h
      simp at h
    simp only [stripTest, if_pos hu1, Bool.and_eq_true, Bool.or_eq_true, Bool.not_eq_true',
      bne_iff_ne, ne_eq, decide_eq_decide, decide_eq_true_eq, decide_eq_false_iff_not,
      gt_iff_lt]
    norm_cast
    rw [hD, hS]
    rcases lt_or_gt_of_ne hu2 with hneg | hpos
    · rw [show -(u.2 * w.1) = (-u.2) * w.1 from by ring,
        show -(u.2 * p.1) = (-u.2) * p.1 from by ring,
        ho_smul (show (0 : ℤ) < -u.2 from by omega)]
      exact strip_prop_gt p.1 w.1
    · rw [show -(u.2 * w.1) = u.2 * (-w.1) from by ring,
        show -(u.2 * p.1) = u.2 * (-p.1) from by ring,
        ho_smul hpos, ho_neg]
      exact strip_prop_gt p.1 w.1
  · have hq : ((u.1 : ℚ)) ≠ 0 := Int.cast_ne_zero.mpr hu1
    simp only [stripTest, if_neg hu1, Bool.and_eq_true, Bool.or_eq_true, Bool.not_eq_true',
      bne_iff_ne, ne_eq, decide_eq_decide, decide_eq_true_eq, decide_eq_false_iff_not,
      gt_iff_lt, lineQ_near, lineQ_far]
    rcases lt_or_gt_of_ne hu1 with hneg | hpos
    · have hq0 : ((u.1 : ℚ)) < 0 := by exact_mod_cast hneg
      have a1 : ((p.2 : ℚ) < (u.2 : ℚ) * (p.1 : ℚ) / (u.1 : ℚ)) ↔ 0 < crossZ u p := by
        rw [lt_div_iff_of_neg hq0]
        constructor
        · intro hh
          have hh' : u.2 * p.1 < p.2 * u.1 := by exact_mod_cast hh
          unfold crossZ
          linarith
        · intro hh
          unfold crossZ at hh
          have hh' : u.2 * p.1 < p.2 * u.1 := by linarith
          exact_mod_cast hh'
      have e1 : ((u.2 : ℚ) * (p.1 : ℚ) / (u.1 : ℚ) = (p.2 : ℚ)) ↔ crossZ u p = 0 := by
        rw [div_eq_iff hq]
        constructor
        · intro hh
          have hh' : u.2 * p.1 = p.2 * u.1 := by exact_mod_cast hh
          unfold crossZ
          linarith
        · intro hh
          unfold crossZ at hh
          have hh' : u.2 * p.1 = p.2 * u.1 := by linarith
          exact_mod_cast hh'
      have a2 : ((p.2 : ℚ) <
            ((u.2 : ℚ) * (p.1 : ℚ) + (w.2 : ℚ) * (u.1 : ℚ) - (w.1 : ℚ) * (u.2 : ℚ)) / (u.1 : ℚ)) ↔
          crossZ u w < crossZ u p := by
        rw [lt_div_iff_of_neg hq0]
        constructor
        · intro hh
          have hh' : u.2 * p.1 + w.2 * u.1 - w.1 * u.2 < p.2 * u.1 := by exact_mod_cast hh
          unfold crossZ
          linarith
        · intro hh
          unfold crossZ at hh
          have hh' : u.2 * p.1 + w.2 * u.1 - w.1 * u.2 < p.2 * u.1 := by linarith
          exact_mod_cast hh'
      have e2 : (((u.2 : ℚ) * (p.1 : ℚ) + (w.2 : ℚ) * (u.1 : ℚ) - (w.1 : ℚ) * (u.2 : ℚ)) / (u.1 : ℚ) =
            (p.2 : ℚ)) ↔ crossZ u p = crossZ u w := by
        rw [div_eq_iff hq]
        constructor
        · intro hh
          have hh' : u.2 * p.1 + w.2 * u.1 - w.1 * u.2 = p.2 * u.1 := by exact_mod_cast hh
          unfold crossZ
          linarith
        · intro hh
          unfold crossZ at hh
          have hh' : u.2 * p.1 + w.2 * u.1 - w.1 * u.2 = p.2 * u.1 := by linarith
          exact_mod_cast hh'
      rw [a1, e1, a2, e2]
      exact strip_prop_gt (crossZ u p) (crossZ u w)
    · have hq0 : (0 : ℚ) < ((u.1 : ℚ)) := by exact_mod_cast hpos
      have a1 : ((p.2 : ℚ) < (u.2 : ℚ) * (p.1 : ℚ) / (u.1 : ℚ)) ↔ crossZ u p < 0 := by
        rw [lt_div_iff hq0]
        constructor
        · intro hh
          have hh' : p.2 * u.1 < u.2 * p.1 := by exact_mod_cast hh
          unfold crossZ
          linarith
        · intro hh
          unfold crossZ at hh
          have hh' : p.2 * u.1 < u.2 * p.1 := by linarith
          exact_mod_cast hh'
      have e1 : ((u.2 : ℚ) * (p.1 : ℚ) / (u.1 : ℚ) = (p.2 : ℚ)) ↔ crossZ u p = 0 := by
        rw [div_eq_iff hq]
        constructor
        · intro hh
          have hh' : u.2 * p.1 = p.2 * u.1 := by exact_mod_cast hh
          unfold crossZ
          linarith
        · intro hh
          unfold crossZ at hh
          have hh' : u.2 * p.1 = p.2 * u.1 := by linarith
          exact_mod_cast hh'
      have a2 : ((p.2 : ℚ) <
            ((u.2 : ℚ) * (p.1 : ℚ) + (w.2 : ℚ) * (u.1 : ℚ) - (w.1 : ℚ) * (u.2 : ℚ)) / (u.1 : ℚ)) ↔
          crossZ u p < crossZ u w := by
        rw [lt_div_iff hq0]
        constructor
        · intro hh
          have hh' : p.2 * u.1 < u.2 * p.1 + w.2 * u.1 - w.1 * u.2 := by exact_mod_cast hh
          unfold crossZ
          linarith
        · intro hh
          unfold crossZ at hh
          have hh' : p.2 * u.1 < u.2 * p.1 + w.2 * u.1 - w.1 * u.2 := by linarith
          exact_mod_cast hh'
      have e2 : (((u.2 : ℚ) * (p.1 : ℚ) + (w.2 : ℚ) * (u.1 : ℚ) - (w.1 : ℚ) * (u.2 : ℚ)) / (u.1 : ℚ) =
            (p.2 : ℚ)) ↔ crossZ u p = crossZ u w := by
        rw [div_eq_iff hq]
        constructor
        · intro hh
          have hh' : u.2 * p.1 + w.2 * u.1 - w.1 * u.2 = p.2 * u.1 := by exact_mod_cast hh
          unfold crossZ
          linarith
        · intro hh
          unfold crossZ at hh
          have hh' : u.2 * p.1 + w.2 * u.1 - w.1 * u.2 = p.2 * u.1 := by linarith
          exact_mod_cast hh'
      rw [a1, e1, a2, e2]
      exact strip_prop_lt (crossZ u p) (crossZ u w)

/-- `test_in_cell(p, va, vb)` holds iff both signed areas lie in their
half-open fundamental intervals. -/
theorem test_in_cell_iff {va vb : ℤ × ℤ} (h : crossZ va vb ≠ 0) (p : ℤ × ℤ) :
    test_in_cell va vb p = true ↔
      hoInt (crossZ va vb) (crossZ va p) ∧ hoInt (-crossZ va vb) (crossZ vb p) := by
  have h' : crossZ vb va ≠ 0 := by
    rw [crossZ_swap]
    omega
  unfold test_in_cell
  rw [Bool.and_eq_true, stripTest_iff h, stripTest_iff h', crossZ_swap vb va]

theorem coordBound {N c1 c2 uu vv x : ℤ} (hN : 0 < N)
    (h1a : 0 ≤ c1) (h1b : c1 < N) (h2a : 0 ≤ c2) (h2b : c2 < N)
    (hx : x * N = c1 * uu + c2 * vv) :
    (min uu 0 + min vv 0 ≤ x) ∧ (min uu 0 + min vv 0 < 0 → min uu 0 + min vv 0 < x) ∧
      (x ≤ max uu 0 + max vv 0) ∧ (0 < max uu 0 + max vv 0 → x < max uu 0 + max vv 0) := by
  have hA : (N - 1) * min uu 0 ≤ c1 * uu := by
    rcases le_or_lt 0 uu with hu | hu
    · rw [min_eq_right hu]
      simpa using mul_nonneg h1a hu
    · rw [min_eq_left hu.le]
      exact mul_le_mul_of_nonpos_right (by omega) hu.le
  have hB : (N - 1) * min vv 0 ≤ c2 * vv := by
    rcases le_or_lt 0 vv with hv | hv
    · rw [min_eq_right hv]
      simpa using mul_nonneg h2a hv
    · rw [min_eq_left hv.le]
      exact mul_le_mul_of_nonpos_right (by omega) hv.le
  have hA' : c1 * uu ≤ (N - 1) * max uu 0 := by
    rcases le_or_lt 0 uu with hu | hu
    · rw [max_eq_left hu]
      exact mul_le_mul_of_nonneg_right (by omega) hu
    · rw [max_eq_right hu.le]
      simpa using mul_nonpos_of_nonneg_of_nonpos h1a hu.le
  have hB' : c2 * vv ≤ (N - 1) * max vv 0 := by
    rcases le_or_lt 0 vv with hv | hv
    · rw [max_eq_left hv]
      exact mul_le_mul_of_nonneg_right (by omega) hv
    · rw [max_eq_right hv.le]
      simpa using mul_nonpos_of_nonneg_of_nonpos h2a hv.le
  have hs : (N - 1) * (min uu 0 + min vv 0) ≤ x * N := by
    rw [hx]
    nlinarith [hA, hB]
  have hs' : x * N ≤ (N - 1) * (max uu 0 + max vv 0) := by
    rw [hx]
    nlinarith [hA', hB']
  have hmin : min uu 0 + min vv 0 ≤ 0 := by omega
  have hmax : 0 ≤ max uu 0 + max vv 0 := by omega
  refine ⟨?_, ?_, ?_, ?_⟩
  · by_contra hc
    push_neg at hc
    have hxle : x ≤ min uu 0 + min vv 0 - 1 := by omega
    have : x * N ≤ (min uu 0 + min vv 0 - 1) * N := mul_le_mul_of_nonneg_right hxle hN.le
    nlinarith
  · intro hlt
    have h0 : N * (min uu 0 + min vv 0) < N * x := by nlinarith [hs]
    exact (mul_lt_mul_left hN).mp h0
  · by_contra hc
    push_neg at hc
    have hxge : max uu 0 + max vv 0 + 1 ≤ x := by omega
    have : (max uu 0 + max vv 0 + 1) * N ≤ x * N := mul_le_mul_of_nonneg_right hxge hN.le
    nlinarith
  · intro hlt
    have h0 : N * x < N * (max uu 0 + max vv 0) := by nlinarith [hs']
    exact (mul_lt_mul_left hN).mp h0

theorem axis_mem {a b x : ℤ} (hab : ¬ (a = 0 ∧ b = 0))
    (l1 : min b 0 + min a 0 ≤ x) (l2 : min b 0 + min a 0 < 0 → min b 0 + min a 0 < x)
    (u1 : x ≤ max b 0 + max a 0) (u2 : 0 < max b 0 + max a 0 → x < max b 0 + max a 0) :
    cellLo a b ≤ x ∧ x < cellLo a b + (a.natAbs + b.natAbs) := by
  unfold cellLo
  split_ifs <;> omega

/-- Every pixel passing the half-open membership test lies inside the
coordinate box allocated by `get_unit_cell`. -/
theorem inCell_mem_box {va vb : ℤ × ℤ} (hD : crossZ va vb ≠ 0) {p : ℤ × ℤ}
    (h1 : hoInt (crossZ va vb) (crossZ va p)) (h2 : hoInt (-crossZ va vb) (crossZ vb p)) :
    p ∈ cellBox va vb := by
  have hx : p.1 * crossZ va vb = crossZ va p * vb.1 - crossZ vb p * va.1 := by
    unfold crossZ
    ring
  have hy : p.2 * crossZ va vb = crossZ va p * vb.2 - crossZ vb p * va.2 := by
    unfold crossZ
    ring
  have hxz : ¬ (va.1 = 0 ∧ vb.1 = 0) := by
    rintro ⟨e1, e2⟩
    apply hD
    unfold crossZ
    rw [e1, e2]
    ring
  have hyz : ¬ (va.2 = 0 ∧ vb.2 = 0) := by
    rintro ⟨e1, e2⟩
    apply hD
    unfold crossZ
    rw [e1, e2]
    ring
  rw [cellBox, Finset.mem_product, Finset.mem_Ico, Finset.mem_Ico]
  rcases lt_or_gt_of_ne hD with hneg | hpos
  · have hDpos : 0 < -crossZ va vb := by omega
    have ha : crossZ va vb < crossZ va p ∧ crossZ va p ≤ 0 := by
      unfold hoInt at h1
      omega
    have hb : 0 ≤ crossZ vb p ∧ crossZ vb p < -crossZ va vb := by
      unfold hoInt at h2
      omega
    have hx' : p.1 * (-crossZ va vb) = (-crossZ va p) * vb.1 + crossZ vb p * va.1 := by
      nlinarith [hx]
    have hy' : p.2 * (-crossZ va vb) = (-crossZ va p) * vb.2 + crossZ vb p * va.2 := by
      nlinarith [hy]
    obtain ⟨xl1, xl2, xu1, xu2⟩ :=
      coordBound hDpos (by omega) (by omega) hb.1 hb.2 hx'
    obtain ⟨yl1, yl2, yu1, yu2⟩ :=
      coordBound hDpos (by omega) (by omega) hb.1 hb.2 hy'
    exact ⟨axis_mem hxz xl1 xl2 xu1 xu2, axis_mem hyz yl1 yl2 yu1 yu2⟩
  · have ha : 0 ≤ crossZ va p ∧ crossZ va p < crossZ va vb := by
      unfold hoInt at h1
      omega
    have hb : -crossZ va vb < crossZ vb p ∧ crossZ vb p ≤ 0 := by
      unfold hoInt at h2
      omega
    have hx' : p.1 * crossZ va vb = crossZ va p * vb.1 + (-crossZ vb p) * va.1 := by
      nlinarith [hx]
    have hy' : p.2 * crossZ va vb = crossZ va p * vb.2 + (-crossZ vb p) * va.2 := by
      nlinarith [hy]
    obtain ⟨xl1, xl2, xu1, xu2⟩ :=
      coordBound hpos ha.1 ha.2 (by omega) (by omega) hx'
    obtain ⟨yl1, yl2, yu1, yu2⟩ :=
      coordBound hpos ha.1 ha.2 (by omega) (by omega) hy'
    exact ⟨axis_mem hxz xl1 xl2 xu1 xu2, axis_mem hyz yl1 yl2 yu1 yu2⟩

theorem latticeMem_comb {va vb x y : ℤ × ℤ} (hx : latticeMem va vb x)
    (hy : latticeMem va vb y) (c1 c2 : ℤ) :
    latticeMem va vb (c1 * x.1 + c2 * y.1, c1 * x.2 + c2 * y.2) := by
  obtain ⟨n1, m1, e1⟩ := hx
  obtain ⟨n2, m2, e2⟩ := hy
  refine ⟨c1 * n1 + c2 * n2, c1 * m1 + c2 * m2, ?_⟩
  rw [e1, e2]
  unfold latComb
  simp only [Prod.mk.injEq]
  constructor <;> ring

theorem latticeMem_va (va vb : ℤ × ℤ) : latticeMem va vb va :=
  ⟨1, 0, by unfold latComb; simp⟩

theorem latticeMem_vb (va vb : ℤ × ℤ) : latticeMem va vb vb :=
  ⟨0, 1, by unfold latComb; simp⟩

theorem latticeMem_single (va vb : ℤ × ℤ) (n m : ℤ) :
    latticeMem va vb (n * va.1 + m * vb.1, n * va.2 + m * vb.2) := by
  have := latticeMem_comb (latticeMem_va va vb) (latticeMem_vb va vb) n m
  simpa using this

/-- The point returned by `reduce2cell` satisfies the half-open membership
conditions (this is the `assert test_in_cell(point_red, va, vb)` of the
source). -/
theorem reduce2cell_spec {va vb : ℤ × ℤ} (hD : crossZ va vb ≠ 0) (p : ℤ × ℤ) :
    hoInt (crossZ va vb) (crossZ va (reduce2cell va vb p)) ∧
      hoInt (-crossZ va vb) (crossZ vb (reduce2cell va vb p)) := by
  constructor
  · have hs : crossZ va (reduce2cell va vb p) =
        crossZ va p - hoDiv (crossZ va vb) (crossZ va p) * crossZ va vb := by
      unfold reduce2cell crossZ
      ring
    rw [hs]
    exact hoInt_of_floor hD
  · have hs : crossZ vb (reduce2cell va vb p) =
        crossZ vb p - hoDiv (-crossZ va vb) (crossZ vb p) * (-crossZ va vb) := by
      unfold reduce2cell crossZ
      ring
    rw [hs]
    exact hoInt_of_floor (by omega)

theorem reduce2cell_lattice (va vb p : ℤ × ℤ) :
    latticeMem va vb (p.1 - (reduce2cell va vb p).1, p.2 - (reduce2cell va vb p).2) := by
  have := latticeMem_single va vb (hoDiv (-crossZ va vb) (crossZ vb p))
    (hoDiv (crossZ va vb) (crossZ va p))
  convert this using 2 <;>
  · unfold reduce2cell
    ring

/-- Two points of the half-open cell in the same lattice coset coincide. -/
theorem inCell_coset_unique {va vb : ℤ × ℤ} (hD : crossZ va vb ≠ 0) {p q : ℤ × ℤ}
    (hp1 : hoInt (crossZ va vb) (crossZ va p))
    (hp2 : hoInt (-crossZ va vb) (crossZ vb p))
    (hq1 : hoInt (crossZ va vb) (crossZ va q))
    (hq2 : hoInt (-crossZ va vb) (crossZ vb q))
    (hmem : latticeMem va vb (p.1 - q.1, p.2 - q.2)) : p = q := by
  obtain ⟨n, m, he⟩ := hmem
  unfold latComb at he
  rw [Prod.mk.injEq] at he
  obtain ⟨he1, he2⟩ := he
  have hsa : crossZ va q = crossZ va p - m * crossZ va vb := by
    unfold crossZ
    linear_combination va.2 * he1 - va.1 * he2
  have hsb : crossZ vb q = crossZ vb p - n * (-crossZ va vb) := by
    unfold crossZ
    linear_combination vb.2 * he1 - vb.1 * he2
  have hm : (0 : ℤ) = m := by
    have h0 : hoInt (crossZ va vb) (crossZ va p - 0 * crossZ va vb) := by simpa using hp1
    have h1 : hoInt (crossZ va vb) (crossZ va p - m * crossZ va vb) := by
      rw [← hsa]
      exact hq1
    exact hoInt_unique hD h0 h1
  have hn : (0 : ℤ) = n := by
    have h0 : hoInt (-crossZ va vb) (crossZ vb p - 0 * (-crossZ va vb)) := by simpa using hp2
    have h1 : hoInt (-crossZ va vb) (crossZ vb p - n * (-crossZ va vb)) := by
      rw [← hsb]
      exact hq2
    exact hoInt_unique (show -crossZ va vb ≠ 0 by omega) h0 h1
  have hm' : m = 0 := hm.symm
  have hn' : n = 0 := hn.symm
  rw [hm', hn'] at he1 he2
  simp at he1 he2
  exact Prod.ext (by omega) (by omega)

theorem reduce2cell_congr {va vb : ℤ × ℤ} (hD : crossZ va vb ≠ 0) {p q : ℤ × ℤ}
    (h : latticeMem va vb (p.1 - q.1, p.2 - q.2)) :
    reduce2cell va vb p = reduce2cell va vb q := by
  obtain ⟨s1, s2⟩ := reduce2cell_spec hD p
  obtain ⟨t1, t2⟩ := reduce2cell_spec hD q
  refine inCell_coset_unique hD s1 s2 t1 t2 ?_
  have hp := reduce2cell_lattice va vb p
  have hq := reduce2cell_lattice va vb q
  have hd := latticeMem_comb (latticeMem_comb h hp 1 (-1)) hq 1 1
  obtain ⟨nn, mm, ee⟩ := hd
  unfold latComb at ee
  rw [Prod.mk.injEq] at ee
  obtain ⟨ee1, ee2⟩ := ee
  simp only at ee1 ee2
  refine ⟨nn, mm, ?_⟩
  unfold latComb
  rw [Prod.mk.injEq]
  constructor
  · linarith [ee1]
  · linarith [ee2]

theorem reduce2cell_of_inCell {va vb : ℤ × ℤ} (hD : crossZ va vb ≠ 0) {p : ℤ × ℤ}
    (h1 : hoInt (crossZ va vb) (crossZ va p))
    (h2 : hoInt (-crossZ va vb) (crossZ vb p)) :
    reduce2cell va vb p = p := by
  obtain ⟨s1, s2⟩ := reduce2cell_spec hD p
  refine inCell_coset_unique hD s1 s2 h1 h2 ?_
  have hp := reduce2cell_lattice va vb p
  obtain ⟨nn, mm, ee⟩ := latticeMem_comb hp hp (-1) 0
  unfold latComb at ee
  rw [Prod.mk.injEq] at ee
  obtain ⟨ee1, ee2⟩ := ee
  simp only at ee1 ee2
  refine ⟨nn, mm, ?_⟩
  unfold latComb
  rw [Prod.mk.injEq]
  constructor
  · linarith [ee1]
  · linarith [ee2]

theorem latticeMem_of_eq {va vb x y : ℤ × ℤ} (h : latticeMem va vb x)
    (e1 : y.1 = x.1) (e2 : y.2 = x.2) : latticeMem va vb y := by
  have : y = x := Prod.ext e1 e2
  rw [this]
  exact h

/-- Counting core: over any finite superset `S` of the half-open cell, the
number of points passing `test_in_cell` is exactly `|cross(va, vb)|`.  The
proof exhibits a bijection with the box `[0, |D|/g) × [0, g)` of the
column-style Hermite normal form of the lattice (`g` the gcd of the
y-components), using `reduce2cell`: every lattice coset meets the half-open
cell exactly once. -/
theorem card_inCell {va vb : ℤ × ℤ} (hD : crossZ va vb ≠ 0) (S : Finset (ℤ × ℤ))
    (hS : ∀ p : ℤ × ℤ, hoInt (crossZ va vb) (crossZ va p) →
      hoInt (-crossZ va vb) (crossZ vb p) → p ∈ S) :
    (S.filter (fun p => test_in_cell va vb p = true)).card = (crossZ va vb).natAbs := by
  have hyz : ¬ (va.2 = 0 ∧ vb.2 = 0) := by
    rintro ⟨e1, e2⟩
    apply hD
    unfold crossZ
    rw [e1, e2]
    ring
  have hg0 : Int.gcd va.2 vb.2 ≠ 0 := by
    intro h0
    rw [Int.gcd_eq_zero_iff] at h0
    exact hyz h0
  have hgpos : 0 < ((Int.gcd va.2 vb.2 : ℕ) : ℤ) := by
    exact_mod_cast Nat.pos_of_ne_zero hg0
  obtain ⟨a2, ha2⟩ : ((Int.gcd va.2 vb.2 : ℕ) : ℤ) ∣ va.2 := Int.gcd_dvd_left
  obtain ⟨b2, hb2⟩ : ((Int.gcd va.2 vb.2 : ℕ) : ℤ) ∣ vb.2 := Int.gcd_dvd_right
  have hbez : ((Int.gcd va.2 vb.2 : ℕ) : ℤ) =
      va.2 * Int.gcdA va.2 vb.2 + vb.2 * Int.gcdB va.2 vb.2 := Int.gcd_eq_gcd_ab va.2 vb.2
  have hunit : a2 * Int.gcdA va.2 vb.2 + b2 * Int.gcdB va.2 vb.2 = 1 := by
    apply mul_left_cancel₀ (show ((Int.gcd va.2 vb.2 : ℕ) : ℤ) ≠ 0 from by omega)
    rw [mul_one]
    linear_combination (-1 : ℤ) * hbez + (-(Int.gcdA va.2 vb.2)) * ha2 +
      (-(Int.gcdB va.2 vb.2)) * hb2
  have hDeq : crossZ va vb = ((Int.gcd va.2 vb.2 : ℕ) : ℤ) * (va.1 * b2 - a2 * vb.1) := by
    unfold crossZ
    linear_combination (-vb.1) * ha2 + va.1 * hb2
  have hDgne : va.1 * b2 - a2 * vb.1 ≠ 0 := by
    intro h0
    apply hD
    rw [hDeq, h0]
    ring
  have hApos : 0 < (((va.1 * b2 - a2 * vb.1).natAbs : ℕ) : ℤ) := by
    exact_mod_cast Int.natAbs_pos.mpr hDgne
  have hw1 : latticeMem va vb (va.1 * b2 - a2 * vb.1, 0) := by
    refine ⟨b2, -a2, ?_⟩
    unfold latComb
    rw [Prod.mk.injEq]
    constructor
    · ring
    · linear_combination (-b2) * ha2 + a2 * hb2
  have hw1A : latticeMem va vb ((((va.1 * b2 - a2 * vb.1).natAbs : ℕ) : ℤ), 0) := by
    rcases Int.natAbs_eq (va.1 * b2 - a2 * vb.1) with hA | hA
    · exact latticeMem_of_eq hw1 (by omega) rfl
    · refine latticeMem_of_eq (latticeMem_comb hw1 hw1 (-1) 0) (by dsimp only; omega)
        (by dsimp only; ring)
  have hw2 : latticeMem va vb
      (Int.gcdA va.2 vb.2 * va.1 + Int.gcdB va.2 vb.2 * vb.1, ((Int.gcd va.2 vb.2 : ℕ) : ℤ)) := by
    refine ⟨Int.gcdA va.2 vb.2, Int.gcdB va.2 vb.2, ?_⟩
    unfold latComb
    rw [Prod.mk.injEq]
    constructor
    · rfl
    · linear_combination hbez
  have hconv_x : ∀ n m : ℤ, n * va.1 + m * vb.1 =
      (n * Int.gcdB va.2 vb.2 - m * Int.gcdA va.2 vb.2) * (va.1 * b2 - a2 * vb.1) +
        (n * a2 + m * b2) * (Int.gcdA va.2 vb.2 * va.1 + Int.gcdB va.2 vb.2 * vb.1) := by
    intro n m
    linear_combination (-(n * va.1) - m * vb.1) * hunit
  have hconv_y : ∀ n m : ℤ, n * va.2 + m * vb.2 =
      (n * a2 + m * b2) * ((Int.gcd va.2 vb.2 : ℕ) : ℤ) := by
    intro n m
    linear_combination n * ha2 + m * hb2
  -- the Hermite residue box
  have uniqU : ∀ u u' : ℤ × ℤ,
      0 ≤ u.1 → u.1 < (((va.1 * b2 - a2 * vb.1).natAbs : ℕ) : ℤ) →
      0 ≤ u.2 → u.2 < ((Int.gcd va.2 vb.2 : ℕ) : ℤ) →
      0 ≤ u'.1 → u'.1 < (((va.1 * b2 - a2 * vb.1).natAbs : ℕ) : ℤ) →
      0 ≤ u'.2 → u'.2 < ((Int.gcd va.2 vb.2 : ℕ) : ℤ) →
      latticeMem va vb (u.1 - u'.1, u.2 - u'.2) → u = u' := by
    intro u u' hx1 hx2 hy1 hy2 hx1' hx2' hy1' hy2' hmem
    obtain ⟨n, m, he⟩ := hmem
    unfold latComb at he
    rw [Prod.mk.injEq] at he
    obtain ⟨he1, he2⟩ := he
    rw [hconv_y n m] at he2
    have hc2 : n * a2 + m * b2 = 0 := interval_unique hgpos hy1 hy2 hy1' hy2' he2
    rw [hconv_x n m, hc2] at he1
    have he1' : u.1 - u'.1 =
        (n * Int.gcdB va.2 vb.2 - m * Int.gcdA va.2 vb.2) * (va.1 * b2 - a2 * vb.1) := by
      linarith [he1]
    have h0' : u.2 - u'.2 = 0 := by
      rw [he2, hc2]
      ring
    rcases Int.natAbs_eq (va.1 * b2 - a2 * vb.1) with hA | hA
    · rw [hA] at he1'
      have hc1 := interval_unique hApos hx1 hx2 hx1' hx2' he1'
      have h0 : u.1 - u'.1 = 0 := by
        rw [he1', hc1]
        ring
      exact Prod.ext (by omega) (by omega)
    · have he1'' : u.1 - u'.1 =
          (-(n * Int.gcdB va.2 vb.2 - m * Int.gcdA va.2 vb.2)) *
            (((va.1 * b2 - a2 * vb.1).natAbs : ℕ) : ℤ) := by
        rw [he1']
        nlinarith [hA]
      have hc1 := interval_unique hApos hx1 hx2 hx1' hx2' he1''
      have h0 : u.1 - u'.1 = 0 := by
        rw [he1'', hc1]
        ring
      exact Prod.ext (by omega) (by omega)
  have exU : ∀ p : ℤ × ℤ, ∃ u : ℤ × ℤ,
      (0 ≤ u.1 ∧ u.1 < (((va.1 * b2 - a2 * vb.1).natAbs : ℕ) : ℤ) ∧
        0 ≤ u.2 ∧ u.2 < ((Int.gcd va.2 vb.2 : ℕ) : ℤ)) ∧
      latticeMem va vb (p.1 - u.1, p.2 - u.2) := by
    intro p
    set k2 := p.2 / ((Int.gcd va.2 vb.2 : ℕ) : ℤ) with hk2
    set q1 := p.1 - k2 * (Int.gcdA va.2 vb.2 * va.1 + Int.gcdB va.2 vb.2 * vb.1) with hq1
    set k1 := q1 / (((va.1 * b2 - a2 * vb.1).natAbs : ℕ) : ℤ) with hk1
    refine ⟨(q1 - k1 * (((va.1 * b2 - a2 * vb.1).natAbs : ℕ) : ℤ),
      p.2 - k2 * ((Int.gcd va.2 vb.2 : ℕ) : ℤ)), ⟨?_, ?_, ?_, ?_⟩, ?_⟩
    · have : q1 - k1 * (((va.1 * b2 - a2 * vb.1).natAbs : ℕ) : ℤ) =
          q1 % (((va.1 * b2 - a2 * vb.1).natAbs : ℕ) : ℤ) := by
        rw [Int.emod_def]
        ring
      rw [this]
      exact Int.emod_nonneg q1 (by omega)
    · have : q1 - k1 * (((va.1 * b2 - a2 * vb.1).natAbs : ℕ) : ℤ) =
          q1 % (((va.1 * b2 - a2 * vb.1).natAbs : ℕ) : ℤ) := by
        rw [Int.emod_def]
        ring
      rw [this]
      exact Int.emod_lt_of_pos q1 hApos
    · have : p.2 - k2 * ((Int.gcd va.2 vb.2 : ℕ) : ℤ) =
          p.2 % ((Int.gcd va.2 vb.2 : ℕ) : ℤ) := by
        rw [Int.emod_def]
        ring
      rw [this]
      exact Int.emod_nonneg p.2 (by omega)
    · have : p.2 - k2 * ((Int.gcd va.2 vb.2 : ℕ) : ℤ) =
          p.2 % ((Int.gcd va.2 vb.2 : ℕ) : ℤ) := by
        rw [Int.emod_def]
        ring
      rw [this]
      exact Int.emod_lt_of_pos p.2 hgpos
    · refine latticeMem_of_eq (latticeMem_comb hw2 hw1A k2 k1) ?_ ?_
      · dsimp only
        ring
      · dsimp only
        ring
  -- the bijection with the residue box
  have hcardU : ((Finset.Ico (0 : ℤ) (((va.1 * b2 - a2 * vb.1).natAbs : ℕ) : ℤ)) ×ˢ
      (Finset.Ico (0 : ℤ) ((Int.gcd va.2 vb.2 : ℕ) : ℤ))).card = (crossZ va vb).natAbs := by
    rw [Finset.card_product, Int.card_Ico, Int.card_Ico]
    simp only [sub_zero, Int.toNat_natCast]
    rw [hDeq, Int.natAbs_mul]
    simp [Int.natAbs_ofNat, Nat.mul_comm]
  rw [← hcardU]
  symm
  apply Finset.card_bij (fun u _ => reduce2cell va vb u)
  · intro u hu
    obtain ⟨s1, s2⟩ := reduce2cell_spec hD u
    rw [Finset.mem_filter]
    exact ⟨hS _ s1 s2, (test_in_cell_iff hD _).mpr ⟨s1, s2⟩⟩
  · intro u hu u' hu' heq
    rw [Finset.mem_product, Finset.mem_Ico, Finset.mem_Ico] at hu hu'
    have hup := reduce2cell_lattice va vb u
    have hup' := reduce2cell_lattice va vb u'
    refine uniqU u u' hu.1.1 hu.1.2 hu.2.1 hu.2.2 hu'.1.1 hu'.1.2 hu'.2.1 hu'.2.2 ?_
    refine latticeMem_of_eq (latticeMem_comb hup hup' 1 (-1)) ?_ ?_
    · dsimp only
      rw [heq]
      ring
    · dsimp only
      rw [heq]
      ring
  · intro t ht
    rw [Finset.mem_filter] at ht
    obtain ⟨hcell1, hcell2⟩ := (test_in_cell_iff hD t).mp ht.2
    obtain ⟨u, ⟨hb1, hb2', hb3, hb4⟩, hmem⟩ := exU t
    refine ⟨u, ?_, ?_⟩
    · rw [Finset.mem_product, Finset.mem_Ico, Finset.mem_Ico]
      exact ⟨⟨hb1, hb2'⟩, ⟨hb3, hb4⟩⟩
    · have hcongr : reduce2cell va vb u = reduce2cell va vb t := by
        refine reduce2cell_congr hD ?_
        refine latticeMem_of_eq (latticeMem_comb hmem hmem (-1) 0) ?_ ?_
        · dsimp only
          ring
        · dsimp only
          ring
      rw [hcongr]
      exact reduce2cell_of_inCell hD hcell1 hcell2

theorem unitCellCount_eq {va vb : ℤ × ℤ} (hD : crossZ va vb ≠ 0) :
    unitCellCount va vb = (crossZ va vb).natAbs :=
  card_inCell hD (cellBox va vb) (fun _ h1 h2 => inCell_mem_box hD h1 h2)

/-- C2: for every integer basis with nonzero cross product, the number of
non-sentinel entries of the `get_unit_cell` array equals the lattice
determinant `|va.x*vb.y - va.y*vb.x|` (the `assert` of `get_unit_cell`
always holds). -/
theorem unit_cell_area_invariant (va vb : ℤ × ℤ) (hD : crossZ va vb ≠ 0) :
    unitCellCount va vb = (crossZ va vb).natAbs :=
  unitCellCount_eq hD

theorem unit_cell_area_invariant_witness :
    crossZ (2, 1) (-1, 1) ≠ 0 ∧
      unitCellCount (2, 1) (-1, 1) = (crossZ (2, 1) (-1, 1)).natAbs :=
  ⟨by decide, unit_cell_area_invariant (2, 1) (-1, 1) (by decide)⟩

theorem ho_widen {d s n : ℤ} (hn : 1 ≤ n) (h : hoInt d s) : hoInt (n * d) s := by
  rcases le_or_lt 0 d with hd | hd
  · have hle : d ≤ n * d := le_mul_of_one_le_left hd hn
    unfold hoInt at h ⊢
    omega
  · have hle : n * d ≤ 1 * d := mul_le_mul_of_nonpos_right hn hd.le
    rw [one_mul] at hle
    unfold hoInt at h ⊢
    omega

theorem sub_cell_to_big {va vb vbn : ℤ × ℤ} {n : ℤ} (hn : 0 < n)
    (hvb1 : vb.1 = n * vbn.1) (hvb2 : vb.2 = n * vbn.2) (q : ℤ × ℤ)
    (h1 : hoInt (crossZ va vbn) (crossZ va q))
    (h2 : hoInt (-crossZ va vbn) (crossZ vbn q)) :
    hoInt (crossZ va vb) (crossZ va q) ∧ hoInt (-crossZ va vb) (crossZ vb q) := by
  have hDn : crossZ va vb = n * crossZ va vbn := by
    unfold crossZ
    linear_combination (-va.2) * hvb1 + va.1 * hvb2
  constructor
  · rw [hDn]
    exact ho_widen (by omega) h1
  · have hq : crossZ vb q = n * crossZ vbn q := by
      unfold crossZ
      linear_combination q.2 * hvb1 + (-q.1) * hvb2
    rw [hDn, hq, show -(n * crossZ va vbn) = n * -crossZ va vbn from by ring]
    exact (ho_smul hn).mpr h2

/-- C5: under the divisibility precondition, `get_sim_unit_cell` never hits
its `PhaseCellMismatch` guard: it returns a cell whose "on" count times
`nphases` is exactly the cell area `|cross(va, vb)|`. -/
theorem get_sim_unit_cell_equal_duty (va vb : ℤ × ℤ) (n : ℤ) (hD : crossZ va vb ≠ 0)
    (hn : 0 < n) (h1 : n ∣ vb.1) (h2 : n ∣ vb.2) :
    get_sim_unit_cell va vb n = Except.ok (simOnCount va vb (vb.1 / n, vb.2 / n)) ∧
      (simOnCount va vb (vb.1 / n, vb.2 / n) : ℤ) * n = ((crossZ va vb).natAbs : ℤ) := by
  have hvb1 : vb.1 = n * (vb.1 / n) := (Int.mul_ediv_cancel' h1).symm
  have hvb2 : vb.2 = n * (vb.2 / n) := (Int.mul_ediv_cancel' h2).symm
  have hDn : crossZ va vb = n * crossZ va (vb.1 / n, vb.2 / n) := by
    unfold crossZ
    linear_combination (-va.2) * hvb1 + va.1 * hvb2
  have hDn' : crossZ va (vb.1 / n, vb.2 / n) ≠ 0 := by
    intro h0
    apply hD
    rw [hDn, h0, mul_zero]
  have hcount : simOnCount va vb (vb.1 / n, vb.2 / n) =
      (crossZ va (vb.1 / n, vb.2 / n)).natAbs := by
    unfold simOnCount
    have hfil : ∀ p ∈ cellBox va vb,
        ((test_in_cell va vb p && test_in_cell va (vb.1 / n, vb.2 / n) p) = true) ↔
          (test_in_cell va (vb.1 / n, vb.2 / n) p = true) := by
      intro p _
      rw [Bool.and_eq_true]
      constructor
      · exact fun h => h.2
      · intro hsub
        obtain ⟨hs1, hs2⟩ := (test_in_cell_iff hDn' p).mp hsub
        obtain ⟨hbig1, hbig2⟩ := sub_cell_to_big hn hvb1 hvb2 p hs1 hs2
        exact ⟨(test_in_cell_iff hD p).mpr ⟨hbig1, hbig2⟩, hsub⟩
    rw [Finset.filter_congr hfil]
    refine card_inCell hDn' (cellBox va vb) ?_
    intro p hs1 hs2
    obtain ⟨hbig1, hbig2⟩ := sub_cell_to_big hn hvb1 hvb2 p hs1 hs2
    exact inCell_mem_box hD hbig1 hbig2
  have harea : unitCellCount va vb = (crossZ va vb).natAbs := unitCellCount_eq hD
  have hnat : ((crossZ va vb).natAbs : ℤ) =
      n * ((crossZ va (vb.1 / n, vb.2 / n)).natAbs : ℤ) := by
    rw [hDn, Int.natAbs_mul]
    push_cast
    rw [abs_of_nonneg hn.le]
  have heq : (simOnCount va vb (vb.1 / n, vb.2 / n) : ℚ) =
      (unitCellCount va vb : ℚ) / (n : ℚ) := by
    rw [hcount, harea]
    rw [eq_div_iff (show (n : ℚ) ≠ 0 from by exact_mod_cast (by omega : n ≠ 0))]
    push_cast
    rw [hDn]
    rw [Int.cast_natAbs, Int.cast_natAbs]
    push_cast
    rw [abs_mul, abs_of_nonneg (show (0 : ℚ) ≤ (n : ℚ) from by exact_mod_cast hn.le)]
    ring
  constructor
  · unfold get_sim_unit_cell
    rw [if_neg (show ¬ phaseGuardFails vb n = true from by
      intro hval
      exact (phaseGuardFails_iff vb n (by omega)).mp hval ⟨h1, h2⟩)]
    rw [if_neg hD]
    rw [if_neg (not_ne_iff.mpr heq)]
  · rw [hcount]
    linarith [hnat]

theorem fourMin_le {q1 q2 q3 q4 x : ℚ}
    (h : q1 = x ∨ q2 = x ∨ q3 = x ∨ q4 = x) : fourMin q1 q2 q3 q4 ≤ x := by
  unfold fourMin
  rcases h with h | h | h | h <;> subst h <;>
    simp [min_le_iff, le_refl, true_or, or_true]

theorem le_fourMax {q1 q2 q3 q4 x : ℚ}
    (h : q1 = x ∨ q2 = x ∨ q3 = x ∨ q4 = x) : x ≤ fourMax q1 q2 q3 q4 := by
  unfold fourMax
  rcases h with h | h | h | h <;> subst h <;>
    simp [le_max_iff, le_refl, true_or, or_true]

theorem corner_bounds {A B C X Y x y : ℚ} (hx1 : 0 ≤ x) (hx2 : x ≤ X)
    (hy1 : 0 ≤ y) (hy2 : y ≤ Y) :
    fourMin (A * X + B * Y + C) (A * 0 + B * Y + C) (A * X + B * 0 + C) (A * 0 + B * 0 + C) ≤
      A * x + B * y + C ∧
    A * x + B * y + C ≤
      fourMax (A * X + B * Y + C) (A * 0 + B * Y + C) (A * X + B * 0 + C) (A * 0 + B * 0 + C) := by
  rcases le_or_lt 0 A with hA | hA <;> rcases le_or_lt 0 B with hB | hB
  · constructor
    · refine le_trans (fourMin_le (Or.inr (Or.inr (Or.inr rfl)))) ?_
      nlinarith
    · refine le_trans ?_ (le_fourMax (Or.inl rfl))
      nlinarith
  · constructor
    · refine le_trans (fourMin_le (Or.inr (Or.inl rfl))) ?_
      nlinarith
    · refine le_trans ?_ (le_fourMax (Or.inr (Or.inr (Or.inl rfl))))
      nlinarith
  · constructor
    · refine le_trans (fourMin_le (Or.inr (Or.inr (Or.inl rfl)))) ?_
      nlinarith
    · refine le_trans ?_ (le_fourMax (Or.inr (Or.inl rfl)))
      nlinarith
  · constructor
    · refine le_trans (fourMin_le (Or.inl rfl)) ?_
      nlinarith
    · refine le_trans ?_ (le_fourMax (Or.inr (Or.inr (Or.inr rfl))))
      nlinarith

theorem tileNu_affine (va vb : ℤ × ℤ) (s : ℤ × ℤ) (q1 q2 : ℚ) :
    tileNu va vb (q1 - (s.1 : ℚ), q2 - (s.2 : ℚ)) =
      ((vb.2 : ℚ) / (crossZ va vb : ℚ)) * q1 + (-(vb.1 : ℚ) / (crossZ va vb : ℚ)) * q2 +
        ((vb.1 : ℚ) * (s.2 : ℚ) - (vb.2 : ℚ) * (s.1 : ℚ)) / (crossZ va vb : ℚ) := by
  unfold tileNu
  ring

theorem tileMu_affine (va vb : ℤ × ℤ) (s : ℤ × ℤ) (q1 q2 : ℚ) :
    tileMu va vb (q1 - (s.1 : ℚ), q2 - (s.2 : ℚ)) =
      (-(va.2 : ℚ) / (crossZ va vb : ℚ)) * q1 + ((va.1 : ℚ) / (crossZ va vb : ℚ)) * q2 +
        ((va.2 : ℚ) * (s.1 : ℚ) - (va.1 : ℚ) * (s.2 : ℚ)) / (crossZ va vb : ℚ) := by
  unfold tileMu
  ring

/-- For an in-canvas pixel, the unique lattice-translate index determined by
the floors of the reciprocal coordinates lies inside the `(n, m)` iteration
range computed by `tile_pattern` from the four canvas corners. -/
theorem index_in_range {va vb : ℤ × ℤ} (hD : crossZ va vb ≠ 0) (s : ℤ × ℤ) (nx ny : ℕ)
    {p : ℤ × ℤ} (hp1 : 0 ≤ p.1) (hp2 : p.1 < (nx : ℤ)) (hp3 : 0 ≤ p.2) (hp4 : p.2 < (ny : ℤ)) :
    (hoDiv (-crossZ va vb) (crossZ vb (p.1 - s.1, p.2 - s.2)),
      hoDiv (crossZ va vb) (crossZ va (p.1 - s.1, p.2 - s.2))) ∈ tileRange va vb s nx ny := by
  have hq : ((crossZ va vb : ℤ) : ℚ) ≠ 0 := Int.cast_ne_zero.mpr hD
  have hx1 : (0 : ℚ) ≤ (p.1 : ℚ) := by exact_mod_cast hp1
  have hx2 : (p.1 : ℚ) ≤ (nx : ℚ) := by exact_mod_cast hp2.le
  have hy1 : (0 : ℚ) ≤ (p.2 : ℚ) := by exact_mod_cast hp3
  have hy2 : (p.2 : ℚ) ≤ (ny : ℚ) := by exact_mod_cast hp4.le
  rw [tileRange, Finset.mem_product, Finset.mem_Icc, Finset.mem_Icc]
  have hν : hoDiv (-crossZ va vb) (crossZ vb (p.1 - s.1, p.2 - s.2)) =
      ⌊tileNu va vb ((p.1 : ℚ) - (s.1 : ℚ), (p.2 : ℚ) - (s.2 : ℚ))⌋ := by
    unfold hoDiv tileNu
    congr 1
    rw [div_eq_div_iff (by exact_mod_cast (show -crossZ va vb ≠ 0 from by omega)) hq]
    unfold crossZ
    push_cast
    ring
  have hμ : hoDiv (crossZ va vb) (crossZ va (p.1 - s.1, p.2 - s.2)) =
      ⌊tileMu va vb ((p.1 : ℚ) - (s.1 : ℚ), (p.2 : ℚ) - (s.2 : ℚ))⌋ := by
    unfold hoDiv tileMu
    congr 1
    rw [div_eq_div_iff hq hq]
    unfold crossZ
    push_cast
    ring
  obtain ⟨hνlo, hνhi⟩ := corner_bounds (A := (vb.2 : ℚ) / (crossZ va vb : ℚ))
    (B := -(vb.1 : ℚ) / (crossZ va vb : ℚ))
    (C := ((vb.1 : ℚ) * (s.2 : ℚ) - (vb.2 : ℚ) * (s.1 : ℚ)) / (crossZ va vb : ℚ))
    (X := (nx : ℚ)) (Y := (ny : ℚ)) hx1 hx2 hy1 hy2
  obtain ⟨hμlo, hμhi⟩ := corner_bounds (A := -(va.2 : ℚ) / (crossZ va vb : ℚ))
    (B := (va.1 : ℚ) / (crossZ va vb : ℚ))
    (C := ((va.2 : ℚ) * (s.1 : ℚ) - (va.1 : ℚ) * (s.2 : ℚ)) / (crossZ va vb : ℚ))
    (X := (nx : ℚ)) (Y := (ny : ℚ)) hx1 hx2 hy1 hy2
  refine ⟨⟨?_, ?_⟩, ?_, ?_⟩
  · rw [hν]
    unfold naMinD
    apply Int.floor_le_floor
    rw [tileNu_affine va vb s (nx : ℚ) (ny : ℚ), tileNu_affine va vb s 0 (ny : ℚ),
      tileNu_affine va vb s (nx : ℚ) 0, tileNu_affine va vb s 0 0,
      tileNu_affine va vb s (p.1 : ℚ) (p.2 : ℚ)]
    convert hνlo using 3 <;> ring
  · rw [hν]
    unfold naMaxD
    have h1 : tileNu va vb ((p.1 : ℚ) - (s.1 : ℚ), (p.2 : ℚ) - (s.2 : ℚ)) ≤
        fourMax (tileNu va vb ((nx : ℚ) - (s.1 : ℚ), (ny : ℚ) - (s.2 : ℚ)))
          (tileNu va vb (0 - (s.1 : ℚ), (ny : ℚ) - (s.2 : ℚ)))
          (tileNu va vb ((nx : ℚ) - (s.1 : ℚ), 0 - (s.2 : ℚ)))
          (tileNu va vb (0 - (s.1 : ℚ), 0 - (s.2 : ℚ))) := by
      rw [tileNu_affine va vb s (nx : ℚ) (ny : ℚ), tileNu_affine va vb s 0 (ny : ℚ),
        tileNu_affine va vb s (nx : ℚ) 0, tileNu_affine va vb s 0 0,
        tileNu_affine va vb s (p.1 : ℚ) (p.2 : ℚ)]
      convert hνhi using 3 <;> ring
    exact_mod_cast le_trans (le_trans (Int.floor_le _) h1) (Int.le_ceil _)
  · rw [hμ]
    unfold nbMinD
    apply Int.floor_le_floor
    rw [tileMu_affine va vb s (nx : ℚ) (ny : ℚ), tileMu_affine va vb s 0 (ny : ℚ),
      tileMu_affine va vb s (nx : ℚ) 0, tileMu_affine va vb s 0 0,
      tileMu_affine va vb s (p.1 : ℚ) (p.2 : ℚ)]
    convert hμlo using 3 <;> ring
  · rw [hμ]
    unfold nbMaxD
    have h1 : tileMu va vb ((p.1 : ℚ) - (s.1 : ℚ), (p.2 : ℚ) - (s.2 : ℚ)) ≤
        fourMax (tileMu va vb ((nx : ℚ) - (s.1 : ℚ), (ny : ℚ) - (s.2 : ℚ)))
          (tileMu va vb (0 - (s.1 : ℚ), (ny : ℚ) - (s.2 : ℚ)))
          (tileMu va vb ((nx : ℚ) - (s.1 : ℚ), 0 - (s.2 : ℚ)))
          (tileMu va vb (0 - (s.1 : ℚ), 0 - (s.2 : ℚ))) := by
      rw [tileMu_affine va vb s (nx : ℚ) (ny : ℚ), tileMu_affine va vb s 0 (ny : ℚ),
        tileMu_affine va vb s (nx : ℚ) 0, tileMu_affine va vb s 0 0,
        tileMu_affine va vb s (p.1 : ℚ) (p.2 : ℚ)]
      convert hμhi using 3 <;> ring
    exact_mod_cast le_trans (le_trans (Int.floor_le _) h1) (Int.le_ceil _)

theorem tile_index_iff {va vb : ℤ × ℤ} (hD : crossZ va vb ≠ 0)
    (memb : ℤ × ℤ → Bool)
    (hm : ∀ q, memb q = true ↔
      hoInt (crossZ va vb) (crossZ va q) ∧ hoInt (-crossZ va vb) (crossZ vb q))
    (w : ℤ × ℤ) (n m : ℤ) :
    memb (w.1 - (n * va.1 + m * vb.1), w.2 - (n * va.2 + m * vb.2)) = true ↔
      n = hoDiv (-crossZ va vb) (crossZ vb w) ∧ m = hoDiv (crossZ va vb) (crossZ va w) := by
  rw [hm]
  have ea : crossZ va (w.1 - (n * va.1 + m * vb.1), w.2 - (n * va.2 + m * vb.2)) =
      crossZ va w - m * crossZ va vb := by
    unfold crossZ
    ring
  have eb : crossZ vb (w.1 - (n * va.1 + m * vb.1), w.2 - (n * va.2 + m * vb.2)) =
      crossZ vb w - n * (-crossZ va vb) := by
    unfold crossZ
    ring
  rw [ea, eb, hoInt_sub_iff hD, hoInt_sub_iff (show -crossZ va vb ≠ 0 from by omega)]
  tauto

theorem tile_direct_eq {va vb : ℤ × ℤ} (hD : crossZ va vb ≠ 0) (s : ℤ × ℤ) (nx ny : ℕ)
    (memb : ℤ × ℤ → Bool) (val : ℤ × ℤ → ℚ)
    (hm : ∀ q, memb q = true ↔
      hoInt (crossZ va vb) (crossZ va q) ∧ hoInt (-crossZ va vb) (crossZ vb q))
    {p : ℤ × ℤ} (hp1 : 0 ≤ p.1) (hp2 : p.1 < (nx : ℤ)) (hp3 : 0 ≤ p.2) (hp4 : p.2 < (ny : ℤ)) :
    tile_pattern_direct va vb s nx ny memb val p =
      val (reduce2cell va vb (p.1 - s.1, p.2 - s.2)) := by
  classical
  set w : ℤ × ℤ := (p.1 - s.1, p.2 - s.2) with hw
  set n0 : ℤ := hoDiv (-crossZ va vb) (crossZ vb w) with hn0
  set m0 : ℤ := hoDiv (crossZ va vb) (crossZ va w) with hm0
  have hmem : (n0, m0) ∈ tileRange va vb s nx ny := by
    rw [hn0, hm0, hw]
    exact index_in_range hD s nx ny hp1 hp2 hp3 hp4
  unfold tile_pattern_direct
  rw [Finset.sum_eq_single_of_mem (n0, m0) hmem]
  · have hin : memb (w.1 - (n0 * va.1 + m0 * vb.1), w.2 - (n0 * va.2 + m0 * vb.2)) = true := by
      rw [tile_index_iff hD memb hm w n0 m0]
      exact ⟨hn0, hm0⟩
    have hpt : (p.1 - s.1 - (n0 * va.1 + m0 * vb.1), p.2 - s.2 - (n0 * va.2 + m0 * vb.2)) =
        reduce2cell va vb w := by
      rw [hn0, hm0]
      unfold reduce2cell
      rw [Prod.mk.injEq]
      constructor <;> (simp only [hw]; ring)
    rw [show (p.1 - s.1 - (n0 * va.1 + m0 * vb.1), p.2 - s.2 - (n0 * va.2 + m0 * vb.2)) =
        (w.1 - (n0 * va.1 + m0 * vb.1), w.2 - (n0 * va.2 + m0 * vb.2)) from by rw [hw]] at hpt ⊢
    rw [hin, if_pos rfl, hpt]
  · intro nm _ hne
    rw [show (p.1 - s.1 - (nm.1 * va.1 + nm.2 * vb.1), p.2 - s.2 - (nm.1 * va.2 + nm.2 * vb.2)) =
        (w.1 - (nm.1 * va.1 + nm.2 * vb.1), w.2 - (nm.1 * va.2 + nm.2 * vb.2)) from by rw [hw]]
    rcases hmb : memb (w.1 - (nm.1 * va.1 + nm.2 * vb.1), w.2 - (nm.1 * va.2 + nm.2 * vb.2)) with
      _ | _
    · simp
    · exfalso
      rw [tile_index_iff hD memb hm w nm.1 nm.2] at hmb
      exact hne (by rw [← hn0, ← hm0] at hmb; exact Prod.ext hmb.1 hmb.2)

theorem ho_double {E s : ℤ} : hoInt (2 * E) s ↔ hoInt E s ∨ hoInt E (s - E) := by
  unfold hoInt
  omega

/-- Spec of the `double_cell` loop along direction `u`: starting from a cell
whose membership is the half-open region `hoInt A (cross u q) ∧
hoInt (cross v u) (cross v q)` and whose values agree with a `u`-periodic
function `f`, after `k` doublings the membership is the same region with the
`cross v` interval scaled by `2^k`, and the values still agree with `f`. -/
theorem double_iter_spec (u v : ℤ × ℤ) (A : ℤ) (memb : ℤ × ℤ → Bool) (val f : ℤ × ℤ → ℚ)
    (hm : ∀ q, memb q = true ↔ hoInt A (crossZ u q) ∧ hoInt (crossZ v u) (crossZ v q))
    (hv : ∀ q, memb q = true → val q = f q)
    (hf : ∀ x y c : ℤ, f (x + c * u.1, y + c * u.2) = f (x, y))
    (k : ℕ) :
    (∀ q, (double_cell_iter u k (memb, val)).1 q = true ↔
        hoInt A (crossZ u q) ∧ hoInt (2 ^ k * crossZ v u) (crossZ v q)) ∧
      (∀ q, (double_cell_iter u k (memb, val)).1 q = true →
        (double_cell_iter u k (memb, val)).2 q = f q) := by
  induction k with
  | zero =>
    refine ⟨fun q => ?_, fun q => hv q⟩
    rw [show double_cell_iter u 0 (memb, val) = (memb, val) from rfl]
    rw [hm q, pow_zero, one_mul]
  | succ k ih =>
    obtain ⟨ihm, ihv⟩ := ih
    have hstep : double_cell_iter u (k + 1) (memb, val) =
        double_cell_step (2 ^ k * u.1, 2 ^ k * u.2) (double_cell_iter u k (memb, val)).1
          (double_cell_iter u k (memb, val)).2 := rfl
    have e1 : ∀ q : ℤ × ℤ, crossZ u (q.1 - 2 ^ k * u.1, q.2 - 2 ^ k * u.2) = crossZ u q := by
      intro q
      unfold crossZ
      ring
    have e2 : ∀ q : ℤ × ℤ, crossZ v (q.1 - 2 ^ k * u.1, q.2 - 2 ^ k * u.2) =
        crossZ v q - 2 ^ k * crossZ v u := by
      intro q
      unfold crossZ
      ring
    have hfk : ∀ q : ℤ × ℤ, f (q.1 - 2 ^ k * u.1, q.2 - 2 ^ k * u.2) = f q := by
      intro q
      have h1 := hf (q.1 - 2 ^ k * u.1) (q.2 - 2 ^ k * u.2) (2 ^ k)
      rw [show q.1 - 2 ^ k * u.1 + 2 ^ k * u.1 = q.1 from by ring,
        show q.2 - 2 ^ k * u.2 + 2 ^ k * u.2 = q.2 from by ring] at h1
      rw [← h1, Prod.mk.eta]
    constructor
    · intro q
      rw [hstep]
      show ((double_cell_iter u k (memb, val)).1 q ||
          (double_cell_iter u k (memb, val)).1 (q.1 - 2 ^ k * u.1, q.2 - 2 ^ k * u.2)) = true ↔ _
      rw [Bool.or_eq_true, ihm q, ihm (q.1 - 2 ^ k * u.1, q.2 - 2 ^ k * u.2), e1, e2]
      rw [show (2 : ℤ) ^ (k + 1) * crossZ v u = 2 * (2 ^ k * crossZ v u) from by ring, ho_double]
      tauto
    · intro q hq
      rw [hstep] at hq ⊢
      rw [show (double_cell_step (2 ^ k * u.1, 2 ^ k * u.2) (double_cell_iter u k (memb, val)).1
          (double_cell_iter u k (memb, val)).2).2 q =
        (if (double_cell_iter u k (memb, val)).1 (q.1 - 2 ^ k * u.1, q.2 - 2 ^ k * u.2) then
          (double_cell_iter u k (memb, val)).2 (q.1 - 2 ^ k * u.1, q.2 - 2 ^ k * u.2)
        else (double_cell_iter u k (memb, val)).2 q) from rfl]
      rcases hc : (double_cell_iter u k (memb, val)).1 (q.1 - 2 ^ k * u.1, q.2 - 2 ^ k * u.2) with
        _ | _
      · rw [if_neg (by decide : ¬(false = true))]
        have hq' : (double_cell_iter u k (memb, val)).1 q = true := by
          have : ((double_cell_iter u k (memb, val)).1 q ||
              (double_cell_iter u k (memb, val)).1
                (q.1 - 2 ^ k * u.1, q.2 - 2 ^ k * u.2)) = true := hq
          rw [hc, Bool.or_false] at this
          exact this
        exact ihv q hq'
      · rw [if_pos (rfl : (true : Bool) = true), ihv _ hc, hfk]

theorem tile_direct_f {va vb : ℤ × ℤ} (hD : crossZ va vb ≠ 0) (s : ℤ × ℤ) (nx ny : ℕ)
    (memb : ℤ × ℤ → Bool) (val f : ℤ × ℤ → ℚ)
    (hm : ∀ q, memb q = true ↔
      hoInt (crossZ va vb) (crossZ va q) ∧ hoInt (-crossZ va vb) (crossZ vb q))
    (hv : ∀ q, memb q = true → val q = f q)
    (hf : ∀ x y n m : ℤ, f (x + n * va.1 + m * vb.1, y + n * va.2 + m * vb.2) = f (x, y))
    {p : ℤ × ℤ} (hp1 : 0 ≤ p.1) (hp2 : p.1 < (nx : ℤ)) (hp3 : 0 ≤ p.2) (hp4 : p.2 < (ny : ℤ)) :
    tile_pattern_direct va vb s nx ny memb val p = f (p.1 - s.1, p.2 - s.2) := by
  rw [tile_direct_eq hD s nx ny memb val hm hp1 hp2 hp3 hp4]
  have hmemb : memb (reduce2cell va vb (p.1 - s.1, p.2 - s.2)) = true :=
    (hm _).mpr (reduce2cell_spec hD (p.1 - s.1, p.2 - s.2))
  rw [hv _ hmemb]
  have hr1 : (reduce2cell va vb (p.1 - s.1, p.2 - s.2)).1 =
      p.1 - s.1 - hoDiv (-crossZ va vb) (crossZ vb (p.1 - s.1, p.2 - s.2)) * va.1 -
        hoDiv (crossZ va vb) (crossZ va (p.1 - s.1, p.2 - s.2)) * vb.1 := rfl
  have hr2 : (reduce2cell va vb (p.1 - s.1, p.2 - s.2)).2 =
      p.2 - s.2 - hoDiv (-crossZ va vb) (crossZ vb (p.1 - s.1, p.2 - s.2)) * va.2 -
        hoDiv (crossZ va vb) (crossZ va (p.1 - s.1, p.2 - s.2)) * vb.2 := rfl
  have h1 := hf (reduce2cell va vb (p.1 - s.1, p.2 - s.2)).1
    (reduce2cell va vb (p.1 - s.1, p.2 - s.2)).2
    (hoDiv (-crossZ va vb) (crossZ vb (p.1 - s.1, p.2 - s.2)))
    (hoDiv (crossZ va vb) (crossZ va (p.1 - s.1, p.2 - s.2)))
  rw [hr1, hr2] at h1
  rw [show p.1 - s.1 - hoDiv (-crossZ va vb) (crossZ vb (p.1 - s.1, p.2 - s.2)) * va.1 -
        hoDiv (crossZ va vb) (crossZ va (p.1 - s.1, p.2 - s.2)) * vb.1 +
        hoDiv (-crossZ va vb) (crossZ vb (p.1 - s.1, p.2 - s.2)) * va.1 +
        hoDiv (crossZ va vb) (crossZ va (p.1 - s.1, p.2 - s.2)) * vb.1 = p.1 - s.1 from by ring,
    show p.2 - s.2 - hoDiv (-crossZ va vb) (crossZ vb (p.1 - s.1, p.2 - s.2)) * va.2 -
        hoDiv (crossZ va vb) (crossZ va (p.1 - s.1, p.2 - s.2)) * vb.2 +
        hoDiv (-crossZ va vb) (crossZ vb (p.1 - s.1, p.2 - s.2)) * va.2 +
        hoDiv (crossZ va vb) (crossZ va (p.1 - s.1, p.2 - s.2)) * vb.2 = p.2 - s.2 from by ring]
    at h1
  rw [show reduce2cell va vb (p.1 - s.1, p.2 - s.2) =
      (p.1 - s.1 - hoDiv (-crossZ va vb) (crossZ vb (p.1 - s.1, p.2 - s.2)) * va.1 -
        hoDiv (crossZ va vb) (crossZ va (p.1 - s.1, p.2 - s.2)) * vb.1,
      p.2 - s.2 - hoDiv (-crossZ va vb) (crossZ vb (p.1 - s.1, p.2 - s.2)) * va.2 -
        hoDiv (crossZ va vb) (crossZ va (p.1 - s.1, p.2 - s.2)) * vb.2) from rfl]
  exact h1.symm

theorem tile_rec_eq (fuel : ℕ) :
    ∀ (va vb : ℤ × ℤ), crossZ va vb ≠ 0 →
    ∀ (s : ℤ × ℤ) (nx ny : ℕ) (memb : ℤ × ℤ → Bool) (val f : ℤ × ℤ → ℚ),
    (∀ q, memb q = true ↔
      hoInt (crossZ va vb) (crossZ va q) ∧ hoInt (-crossZ va vb) (crossZ vb q)) →
    (∀ q, memb q = true → val q = f q) →
    (∀ x y n m : ℤ, f (x + n * va.1 + m * vb.1, y + n * va.2 + m * vb.2) = f (x, y)) →
    ∀ p : ℤ × ℤ, 0 ≤ p.1 → p.1 < (nx : ℤ) → 0 ≤ p.2 → p.2 < (ny : ℤ) →
    tile_pattern_rec fuel va vb s nx ny memb val p = f (p.1 - s.1, p.2 - s.2) := by
  induction fuel with
  | zero =>
    intro va vb hD s nx ny memb val f hm hv hf p hp1 hp2 hp3 hp4
    exact tile_direct_f hD s nx ny memb val f hm hv hf hp1 hp2 hp3 hp4
  | succ fuel ih =>
    intro va vb hD s nx ny memb val f hm hv hf p hp1 hp2 hp3 hp4
    rw [tile_pattern_rec]
    split_ifs with hc
    · set a : ℕ := nDoublings (naMaxD va vb s nx ny - naMinD va vb s nx ny) with ha
      set b : ℕ := nDoublings (nbMaxD va vb s nx ny - nbMinD va vb s nx ny) with hb
      have h2a : (0 : ℤ) < 2 ^ a := pow_pos (by norm_num) a
      have h2b : (0 : ℤ) < 2 ^ b := pow_pos (by norm_num) b
      have hm1 : ∀ q, memb q = true ↔
          hoInt (crossZ va vb) (crossZ va q) ∧ hoInt (crossZ vb va) (crossZ vb q) := by
        intro q
        rw [hm q, crossZ_swap vb va]
      have hf1 : ∀ x y c : ℤ, f (x + c * va.1, y + c * va.2) = f (x, y) := by
        intro x y c
        have h := hf x y c 0
        rw [show x + c * va.1 + 0 * vb.1 = x + c * va.1 from by ring,
          show y + c * va.2 + 0 * vb.2 = y + c * va.2 from by ring] at h
        exact h
      obtain ⟨specAm, specAv⟩ :=
        double_iter_spec va vb (crossZ va vb) memb val f hm1 hv hf1 a
      have hmB : ∀ q, (double_cell_iter va a (memb, val)).1 q = true ↔
          hoInt (2 ^ a * crossZ vb va) (crossZ vb q) ∧
            hoInt (crossZ va vb) (crossZ va q) := by
        intro q
        rw [specAm q]
        exact and_comm
      have hfB : ∀ x y c : ℤ, f (x + c * vb.1, y + c * vb.2) = f (x, y) := by
        intro x y c
        have h := hf x y 0 c
        rw [show x + 0 * va.1 + c * vb.1 = x + c * vb.1 from by ring,
          show y + 0 * va.2 + c * vb.2 = y + c * vb.2 from by ring] at h
        exact h
      obtain ⟨specBm, specBv⟩ :=
        double_iter_spec vb va (2 ^ a * crossZ vb va)
          (double_cell_iter va a (memb, val)).1 (double_cell_iter va a (memb, val)).2 f
          hmB specAv hfB b
      have heta : ((double_cell_iter va a (memb, val)).1,
          (double_cell_iter va a (memb, val)).2) = double_cell_iter va a (memb, val) :=
        Prod.mk.eta
      rw [heta] at specBm specBv
      have hca : ∀ q : ℤ × ℤ,
          crossZ (2 ^ a * va.1, 2 ^ a * va.2) q = 2 ^ a * crossZ va q := by
        intro q
        show 2 ^ a * va.1 * q.2 - 2 ^ a * va.2 * q.1 = _
        unfold crossZ
        ring
      have hcb : ∀ q : ℤ × ℤ,
          crossZ (2 ^ b * vb.1, 2 ^ b * vb.2) q = 2 ^ b * crossZ vb q := by
        intro q
        show 2 ^ b * vb.1 * q.2 - 2 ^ b * vb.2 * q.1 = _
        unfold crossZ
        ring
      have hcc : crossZ (2 ^ a * va.1, 2 ^ a * va.2) (2 ^ b * vb.1, 2 ^ b * vb.2) =
          2 ^ a * (2 ^ b * crossZ va vb) := by
        show 2 ^ a * va.1 * (2 ^ b * vb.2) - 2 ^ a * va.2 * (2 ^ b * vb.1) = _
        unfold crossZ
        ring
      have hD' : crossZ (2 ^ a * va.1, 2 ^ a * va.2) (2 ^ b * vb.1, 2 ^ b * vb.2) ≠ 0 := by
        rw [hcc]
        exact mul_ne_zero (by positivity) (mul_ne_zero (by positivity) hD)
      have hm' : ∀ q,
          (double_cell_iter vb b (double_cell_iter va a (memb, val))).1 q = true ↔
          hoInt (crossZ (2 ^ a * va.1, 2 ^ a * va.2) (2 ^ b * vb.1, 2 ^ b * vb.2))
              (crossZ (2 ^ a * va.1, 2 ^ a * va.2) q) ∧
            hoInt (-crossZ (2 ^ a * va.1, 2 ^ a * va.2) (2 ^ b * vb.1, 2 ^ b * vb.2))
              (crossZ (2 ^ b * vb.1, 2 ^ b * vb.2) q) := by
        intro q
        rw [specBm q, hcc, hca q, hcb q]
        rw [ho_smul h2a,
          show -(2 ^ a * (2 ^ b * crossZ va vb)) = 2 ^ b * (2 ^ a * crossZ vb va) from by
            rw [crossZ_swap vb va]; ring,
          ho_smul h2b]
        exact and_comm
      have hf' : ∀ x y n m : ℤ,
          f (x + n * (2 ^ a * va.1) + m * (2 ^ b * vb.1),
            y + n * (2 ^ a * va.2) + m * (2 ^ b * vb.2)) = f (x, y) := by
        intro x y n m
        have h := hf x y (n * 2 ^ a) (m * 2 ^ b)
        rw [show x + n * 2 ^ a * va.1 + m * 2 ^ b * vb.1 =
            x + n * (2 ^ a * va.1) + m * (2 ^ b * vb.1) from by ring,
          show y + n * 2 ^ a * va.2 + m * 2 ^ b * vb.2 =
            y + n * (2 ^ a * va.2) + m * (2 ^ b * vb.2) from by ring] at h
        exact h
      exact ih (2 ^ a * va.1, 2 ^ a * va.2) (2 ^ b * vb.1, 2 ^ b * vb.2) hD' s nx ny
        (double_cell_iter vb b (double_cell_iter va a (memb, val))).1
        (double_cell_iter vb b (double_cell_iter va a (memb, val))).2 f
        hm' specBv hf' p hp1 hp2 hp3 hp4
    · exact tile_direct_f hD s nx ny memb val f hm hv hf hp1 hp2 hp3 hp4

theorem latticeMem_sub_smul {va vb x y : ℤ × ℤ} (hx : latticeMem va vb x)
    (hy : latticeMem va vb y) (k : ℤ) :
    latticeMem va vb (x.1 - k * y.1, x.2 - k * y.2) := by
  have h := latticeMem_comb hx hy 1 (-k)
  exact latticeMem_of_eq h (by ring) (by ring)

theorem gaussLoop_mem (va0 vb0 : ℤ × ℤ) (N : ℕ) :
    ∀ va vb : ℤ × ℤ, ∀ sw : Bool, (normSq va).toNat ≤ N →
    latticeMem va0 vb0 va → latticeMem va0 vb0 vb →
    latticeMem va0 vb0 (gaussLoop va vb sw).1 ∧
      latticeMem va0 vb0 (gaussLoop va vb sw).2.1 := by
  induction N with
  | zero =>
    intro va vb sw hN hva hvb
    rw [gaussLoop]
    rcases Classical.em (normSq vb < normSq va) with h | h
    · exfalso
      have h0 : 0 ≤ normSq vb := by
        have h1 := mul_self_nonneg vb.1
        have h2 := mul_self_nonneg vb.2
        unfold normSq
        omega
      omega
    · rw [dif_neg h]
      exact ⟨hva, hvb⟩
  | succ N ih =>
    intro va vb sw hN hva hvb
    rw [gaussLoop]
    rcases Classical.em (normSq vb < normSq va) with h | h
    · rw [dif_pos h]
      have h0 : 0 ≤ normSq vb := by
        have h1 := mul_self_nonneg vb.1
        have h2 := mul_self_nonneg vb.2
        unfold normSq
        omega
      refine ih vb _ (!sw) (by omega) hvb
        (latticeMem_sub_smul hva hvb (roundHalfEven ((dotZ vb va : ℚ) / (normSq vb : ℚ))))
    · rw [dif_neg h]
      exact ⟨hva, hvb⟩

/-- Both vectors returned by `reduce_basis` lie in the lattice spanned by the
input basis. -/
theorem reduce_basis_mem (va vb : ℤ × ℤ) :
    latticeMem va vb (reduce_basis va vb).1 ∧ latticeMem va vb (reduce_basis va vb).2 := by
  have hmem := gaussLoop_mem va vb
    (normSq va).toNat va
    (vb.1 - roundHalfEven ((dotZ va vb : ℚ) / (normSq va : ℚ)) * va.1,
      vb.2 - roundHalfEven ((dotZ va vb : ℚ) / (normSq va : ℚ)) * va.2) false le_rfl
    (latticeMem_va va vb)
    (latticeMem_sub_smul (latticeMem_vb va vb) (latticeMem_va va vb)
      (roundHalfEven ((dotZ va vb : ℚ) / (normSq va : ℚ))))
  simp only [reduce_basis]
  rcases Classical.em ((gaussLoop va
      (vb.1 - roundHalfEven ((dotZ va vb : ℚ) / (normSq va : ℚ)) * va.1,
        vb.2 - roundHalfEven ((dotZ va vb : ℚ) / (normSq va : ℚ)) * va.2) false).2.2 = true)
    with h | h
  · rw [if_pos h]
    exact ⟨hmem.2, hmem.1⟩
  · rw [if_neg h]
    exact ⟨hmem.1, hmem.2⟩

/-- C4: tiling directly versus tiling through the `double_cell` doubling path
produce identical patterns.  For every basis with nonzero cross product, start
offset, canvas and cell value function, and every recursion depth `fuel` of
the threshold-triggered doubling recursion of `tile_pattern`, the recursive
tiler agrees with the direct tiling loop at every in-canvas pixel. -/
theorem tile_pattern_doubling_equiv (fuel : ℕ) {va vb : ℤ × ℤ} (hD : crossZ va vb ≠ 0)
    (s : ℤ × ℤ) (nx ny : ℕ) (val : ℤ × ℤ → ℚ) {p : ℤ × ℤ}
    (hp1 : 0 ≤ p.1) (hp2 : p.1 < (nx : ℤ)) (hp3 : 0 ≤ p.2) (hp4 : p.2 < (ny : ℤ)) :
    tile_pattern_rec fuel va vb s nx ny (test_in_cell va vb) val p =
      tile_pattern_direct va vb s nx ny (test_in_cell va vb) val p := by
  have hm : ∀ q, test_in_cell va vb q = true ↔
      hoInt (crossZ va vb) (crossZ va q) ∧ hoInt (-crossZ va vb) (crossZ vb q) :=
    fun q => test_in_cell_iff hD q
  have hv : ∀ q, test_in_cell va vb q = true →
      val q = val (reduce2cell va vb q) := by
    intro q hq
    obtain ⟨h1, h2⟩ := (test_in_cell_iff hD q).mp hq
    rw [reduce2cell_of_inCell hD h1 h2]
  have hf : ∀ x y n m : ℤ,
      val (reduce2cell va vb (x + n * va.1 + m * vb.1, y + n * va.2 + m * vb.2)) =
        val (reduce2cell va vb (x, y)) := by
    intro x y n m
    congr 1
    apply reduce2cell_congr hD
    refine latticeMem_of_eq (latticeMem_single va vb n m) ?_ ?_
    · show x + n * va.1 + m * vb.1 - x = n * va.1 + m * vb.1
      ring
    · show y + n * va.2 + m * vb.2 - y = n * va.2 + m * vb.2
      ring
  rw [tile_rec_eq fuel va vb hD s nx ny (test_in_cell va vb) val
    (fun q => val (reduce2cell va vb q)) hm hv hf p hp1 hp2 hp3 hp4]
  rw [tile_direct_f hD s nx ny (test_in_cell va vb) val
    (fun q => val (reduce2cell va vb q)) hm hv hf hp1 hp2 hp3 hp4]

theorem tile_pattern_doubling_equiv_witness :
    tile_pattern_rec 0 (1, 0) (0, 1) (0, 0) 1 1 (test_in_cell (1, 0) (0, 1))
        (fun _ => 0) (0, 0) =
      tile_pattern_direct (1, 0) (0, 1) (0, 0) 1 1 (test_in_cell (1, 0) (0, 1))
        (fun _ => 0) (0, 0) :=
  tile_pattern_doubling_equiv 0 (by decide) (0, 0) 1 1 (fun _ => 0)
    (by decide) (by decide) (by decide) (by decide)

theorem get_sim_pattern_val_eq (nx ny : ℕ) {va vb : ℤ × ℤ} (hD : crossZ va vb ≠ 0)
    (nphases phase_index : ℤ) (fuel : ℕ) {q : ℤ × ℤ}
    (h1 : 0 ≤ q.1) (h2 : q.1 < (nx : ℤ)) (h3 : 0 ≤ q.2) (h4 : q.2 < (ny : ℤ)) :
    get_sim_pattern_val nx ny va vb nphases phase_index fuel q =
      simCellVal va (vb.1 / nphases, vb.2 / nphases)
        (reduce2cell va vb (q.1 - phase_index * (vb.1 / nphases),
          q.2 - phase_index * (vb.2 / nphases))) := by
  have hD' : crossZ (reduce_basis va vb).1 (reduce_basis va vb).2 ≠ 0 := by
    rw [reduce_basis_cross]
    exact hD
  have hm : ∀ w, test_in_cell (reduce_basis va vb).1 (reduce_basis va vb).2 w = true ↔
      hoInt (crossZ (reduce_basis va vb).1 (reduce_basis va vb).2)
          (crossZ (reduce_basis va vb).1 w) ∧
        hoInt (-crossZ (reduce_basis va vb).1 (reduce_basis va vb).2)
          (crossZ (reduce_basis va vb).2 w) :=
    fun w => test_in_cell_iff hD' w
  have hf : ∀ x y n m : ℤ,
      simCellVal va (vb.1 / nphases, vb.2 / nphases)
          (reduce2cell va vb (x + n * (reduce_basis va vb).1.1 + m * (reduce_basis va vb).2.1,
            y + n * (reduce_basis va vb).1.2 + m * (reduce_basis va vb).2.2)) =
        simCellVal va (vb.1 / nphases, vb.2 / nphases) (reduce2cell va vb (x, y)) := by
    intro x y n m
    congr 1
    apply reduce2cell_congr hD
    refine latticeMem_of_eq
      (latticeMem_comb (reduce_basis_mem va vb).1 (reduce_basis_mem va vb).2 n m) ?_ ?_
    · show x + n * (reduce_basis va vb).1.1 + m * (reduce_basis va vb).2.1 - x =
        n * (reduce_basis va vb).1.1 + m * (reduce_basis va vb).2.1
      ring
    · show y + n * (reduce_basis va vb).1.2 + m * (reduce_basis va vb).2.2 - y =
        n * (reduce_basis va vb).1.2 + m * (reduce_basis va vb).2.2
      ring
  exact tile_rec_eq fuel (reduce_basis va vb).1 (reduce_basis va vb).2 hD'
    (phase_index * (vb.1 / nphases), phase_index * (vb.2 / nphases)) nx ny
    (test_in_cell (reduce_basis va vb).1 (reduce_basis va vb).2)
    (fun w => simCellVal va (vb.1 / nphases, vb.2 / nphases) (reduce2cell va vb w))
    (fun w => simCellVal va (vb.1 / nphases, vb.2 / nphases) (reduce2cell va vb w))
    hm (fun _ _ => rfl) hf q h1 h2 h3 h4

/-- C3: the patterns produced by `get_sim_pattern` (reduced-basis tiling of
the SIM unit cell, at any recursion depth of `tile_pattern`) are periodic
under both lattice vectors: whenever a pixel and its translate by `vec_a`
(resp. `vec_b`) are both inside the canvas, the pattern takes the same value
at the two pixels. -/
theorem get_sim_pattern_periodic (nx ny : ℕ) {va vb : ℤ × ℤ} (hD : crossZ va vb ≠ 0)
    (nphases phase_index : ℤ) (fuel : ℕ) {p : ℤ × ℤ}
    (hp1 : 0 ≤ p.1) (hp2 : p.1 < (nx : ℤ)) (hp3 : 0 ≤ p.2) (hp4 : p.2 < (ny : ℤ)) :
    (0 ≤ p.1 + va.1 → p.1 + va.1 < (nx : ℤ) → 0 ≤ p.2 + va.2 → p.2 + va.2 < (ny : ℤ) →
      get_sim_pattern_val nx ny va vb nphases phase_index fuel (p.1 + va.1, p.2 + va.2) =
        get_sim_pattern_val nx ny va vb nphases phase_index fuel p) ∧
    (0 ≤ p.1 + vb.1 → p.1 + vb.1 < (nx : ℤ) → 0 ≤ p.2 + vb.2 → p.2 + vb.2 < (ny : ℤ) →
      get_sim_pattern_val nx ny va vb nphases phase_index fuel (p.1 + vb.1, p.2 + vb.2) =
        get_sim_pattern_val nx ny va vb nphases phase_index fuel p) := by
  constructor
  · intro ha1 ha2 ha3 ha4
    rw [get_sim_pattern_val_eq nx ny hD nphases phase_index fuel
      (show (0 : ℤ) ≤ ((p.1 + va.1, p.2 + va.2) : ℤ × ℤ).1 from ha1) ha2 ha3 ha4]
    rw [get_sim_pattern_val_eq nx ny hD nphases phase_index fuel hp1 hp2 hp3 hp4]
    congr 1
    apply reduce2cell_congr hD
    refine latticeMem_of_eq (latticeMem_va va vb) ?_ ?_
    · show p.1 + va.1 - phase_index * (vb.1 / nphases) -
        (p.1 - phase_index * (vb.1 / nphases)) = va.1
      ring
    · show p.2 + va.2 - phase_index * (vb.2 / nphases) -
        (p.2 - phase_index * (vb.2 / nphases)) = va.2
      ring
  · intro hb1 hb2 hb3 hb4
    rw [get_sim_pattern_val_eq nx ny hD nphases phase_index fuel
      (show (0 : ℤ) ≤ ((p.1 + vb.1, p.2 + vb.2) : ℤ × ℤ).1 from hb1) hb2 hb3 hb4]
    rw [get_sim_pattern_val_eq nx ny hD nphases phase_index fuel hp1 hp2 hp3 hp4]
    congr 1
    apply reduce2cell_congr hD
    refine latticeMem_of_eq (latticeMem_vb va vb) ?_ ?_
    · show p.1 + vb.1 - phase_index * (vb.1 / nphases) -
        (p.1 - phase_index * (vb.1 / nphases)) = vb.1
      ring
    · show p.2 + vb.2 - phase_index * (vb.2 / nphases) -
        (p.2 - phase_index * (vb.2 / nphases)) = vb.2
      ring

theorem get_sim_pattern_periodic_witness :
    ((0 : ℤ) ≤ (0 : ℤ) + 1 → (0 : ℤ) + 1 < (3 : ℤ) → (0 : ℤ) ≤ (0 : ℤ) + 0 →
      (0 : ℤ) + 0 < (3 : ℤ) →
      get_sim_pattern_val 3 3 (1, 0) (0, 2) 2 0 0 ((0 : ℤ) + 1, (0 : ℤ) + 0) =
        get_sim_pattern_val 3 3 (1, 0) (0, 2) 2 0 0 (0, 0)) ∧
    ((0 : ℤ) ≤ (0 : ℤ) + 0 → (0 : ℤ) + 0 < (3 : ℤ) → (0 : ℤ) ≤ (0 : ℤ) + 2 →
      (0 : ℤ) + 2 < (3 : ℤ) →
      get_sim_pattern_val 3 3 (1, 0) (0, 2) 2 0 0 ((0 : ℤ) + 0, (0 : ℤ) + 2) =
        get_sim_pattern_val 3 3 (1, 0) (0, 2) 2 0 0 (0, 0)) :=
  @get_sim_pattern_periodic 3 3 (1, 0) (0, 2) (by decide) 2 0 0 (0, 0)
    (by decide) (by decide) (by decide) (by decide)

theorem get_sim_unit_cell_equal_duty_witness :
    get_sim_unit_cell (1, 0) (0, 2) 2 =
        Except.ok (simOnCount (1, 0) (0, 2) ((0 : ℤ) / 2, (2 : ℤ) / 2)) ∧
      (simOnCount (1, 0) (0, 2) ((0 : ℤ) / 2, (2 : ℤ) / 2) : ℤ) * 2 =
        ((crossZ (1, 0) (0, 2)).natAbs : ℤ) :=
  get_sim_unit_cell_equal_duty (1, 0) (0, 2) 2 (by decide) (by decide)
    ⟨0, by decide⟩ ⟨1, by decide⟩
